import Mathlib

/-! MostCommonK-mers: a shallow embedding of `src/src/MostCommonK-mers.cpp`

Conventions of the embedding.

* A C++ `char` is represented by its integer code `int(c)`, a `std::string` by the
  list of the codes of its characters.  Nothing is assumed about the range of a code,
  so both signed and unsigned `char` platforms are covered.
* `int` values are unbounded integers: every theorem below is about runs in which no
  `int` computation leaves the 32-bit range (signed overflow is undefined behaviour
  in C++).  `KMER_SIZE` is a natural number: a negative k-mer size is outside the model.
  `LINE_COUNT` is a natural number: the 64-bit counter does not wrap.
* `std::unordered_map<kmer, int>` is an association list of `(key, count)` entries;
  a key is looked up with the overloaded `kmer::operator==`.  The iteration order of
  the container is the order of the list.
* The global variables of the program are the fields of `Globals`.
* A `float` is represented by the rational number it holds.  `to_float` rounds a rational
  to the nearest binary32 value, ties to even, subnormal values included; the conversion
  of an `unsigned long` to `float` and the `float` product of line 158 round this way.
  A result beyond the largest finite `float` is kept as the rounded rational: the only use
  of the product converts it to `int`, where it is out of range as infinity is.
  The field `FAIRNESS_CONST` holds the number the constant was set to (1.25, or the
  argument `stof` parses); `clean_map` reads its binary32 value `to_float FAIRNESS_CONST`,
  which is the field itself when that is a binary32 value.  Infinities and NaN are
  outside the model.
* The conversion of a `float` to `int` discards the fractional part.  For a value outside
  the range of `int` the conversion is undefined in C++; the model gives `INT_MIN`, the
  value the conversion instruction of x86-64 delivers.
* An integer division by zero is undefined behaviour; a function that can perform one
  returns `Option`, with `none` for that case.
-/

namespace MostCommonKmers

/-! ## Strings -/

/-- The value of `s.front()` (the character at index 0). -/
def front (s : List Int) : Int := s.headD 0

/-- The value of `s.back()` (the last character). -/
def back (s : List Int) : Int := s.getLastD 0

/-- The value of `s[i]`. -/
def charAt (s : List Int) (i : Nat) : Int := s.getD i 0

/-- The value of `s.substr(pos, len)` for `pos <= s.length()`. -/
def substr (s : List Int) (pos len : Nat) : List Int := (s.drop pos).take len

/-! ## The key type `kmer` and the table -/

/-- The struct `kmer`: a DNA subsequence and its hash value. -/
structure kmer where
  pattern : List Int
  hash_value : Int
deriving DecidableEq, Repr

/-- The overloaded `kmer::operator==`: hash values first, then the strings. -/
def kmer.equals (self k : kmer) : Bool :=
  if k.hash_value ≠ self.hash_value then false
  else if k.pattern = self.pattern then true
  else false

/-- The type `unordered_map<kmer, int>`, as the list of its entries. -/
abbrev Table := List (kmer × Int)

/-- The expression `++kmer_map[a_kmer]`: `operator[]` finds the entry of an equal key or
creates one with the value 0, the increment adds one, the new value is returned. -/
def increment : Table → kmer → Table × Int
  | [], a_kmer => ([(a_kmer, 0 + 1)], 0 + 1)
  | (k, v) :: rest, a_kmer =>
    if k.equals a_kmer then ((k, v + 1) :: rest, v + 1)
    else ((k, v) :: (increment rest a_kmer).1, (increment rest a_kmer).2)

/-! ## `calculate_hash` -/

/-- The function `calculate_hash`, returning `(raw_hash, actual_hash)`. -/
def calculate_hash (KMER_SIZE : Nat) (subseq : List Int) (prev_hash : Int)
    (prev_subseq_first_char : Int) : Int × Int :=
  let raw_hash : Int :=
    if prev_hash ≠ -1 then
      prev_hash + back subseq - prev_subseq_first_char
    else
      subseq.foldl (fun acc c => acc + c) 0
  let actual_hash : Int :=
    raw_hash + front subseq + back subseq + charAt subseq (KMER_SIZE / 2)
  (raw_hash, actual_hash)

/-! ## `process_seq` -/

/-- The variables of `process_seq` that live across the iterations of its loop. -/
structure SeqLoop where
  kmer_map : Table
  most_common_count : Int
  prev_hash : Int
  prev_first_char : Int
deriving DecidableEq, Repr

/-- The body of the `for` loop of `process_seq`, at index `i`. -/
def seq_body (KMER_SIZE : Nat) (dna_seq : List Int) (st : SeqLoop) (i : Nat) : SeqLoop :=
  let subseq := substr dna_seq i KMER_SIZE
  let hash_pair := calculate_hash KMER_SIZE subseq st.prev_hash st.prev_first_char
  let a_kmer : kmer := { pattern := subseq, hash_value := hash_pair.2 }
  let r := increment st.kmer_map a_kmer
  let hit_count := r.2
  { kmer_map := r.1
    most_common_count :=
      if hit_count > st.most_common_count then hit_count else st.most_common_count
    prev_hash := hash_pair.1
    prev_first_char := charAt subseq 0 }

/-- The loop `for(int i = 0; i + KMER_SIZE <= seq_length; i++)` of `process_seq`, started
at index `i`; `fuel` bounds the number of iterations. -/
def seq_loop (KMER_SIZE : Nat) (dna_seq : List Int) : Nat → Nat → SeqLoop → SeqLoop
  | 0, _, st => st
  | fuel + 1, i, st =>
    if i + KMER_SIZE ≤ dna_seq.length then
      seq_loop KMER_SIZE dna_seq fuel (i + 1) (seq_body KMER_SIZE dna_seq st i)
    else st

/-- The function `process_seq`: the returned `int` and the table it leaves. The loop index
never exceeds `seq_length`, so `seq_length + 1` iterations of fuel are enough. -/
def process_seq (KMER_SIZE : Nat) (dna_seq : List Int) (kmer_map : Table)
    (most_common : Int) : Int × Table :=
  let seq_length := dna_seq.length
  if seq_length < KMER_SIZE then (-1, kmer_map)
  else
    let st := seq_loop KMER_SIZE dna_seq (seq_length + 1) 0
      { kmer_map := kmer_map, most_common_count := most_common,
        prev_hash := -1, prev_first_char := 0 }
    (st.most_common_count, st.kmer_map)

/-- The loop state of `process_seq` at the head of iteration `i`, that is after the
iterations `0, ..., i - 1`. -/
def loop_state (KMER_SIZE : Nat) (dna_seq : List Int) (kmer_map : Table)
    (most_common : Int) (i : Nat) : SeqLoop :=
  (List.range i).foldl (seq_body KMER_SIZE dna_seq)
    { kmer_map := kmer_map, most_common_count := most_common,
      prev_hash := -1, prev_first_char := 0 }

/-- The `hash_pair` that iteration `i` of `process_seq` computes: `calculate_hash` on
window `i` with the `prev_hash` and `prev_first_char` the earlier iterations left. -/
def hash_pair_at (KMER_SIZE : Nat) (dna_seq : List Int) (kmer_map : Table)
    (most_common : Int) (i : Nat) : Int × Int :=
  let st := loop_state KMER_SIZE dna_seq kmer_map most_common i
  calculate_hash KMER_SIZE (substr dna_seq i KMER_SIZE) st.prev_hash st.prev_first_char

/-- The sequences of a list are processed one after the other with no eviction pass in
between; the running maximum is updated as `main` does after each call. -/
def process_all (KMER_SIZE : Nat) : List (List Int) → Table → Int → Int × Table
  | [], kmer_map, most_common => (most_common, kmer_map)
  | dna_seq :: rest, kmer_map, most_common =>
    let r := process_seq KMER_SIZE dna_seq kmer_map most_common
    process_all KMER_SIZE rest r.2 (if r.1 > most_common then r.1 else most_common)

/-! ## Brute-force substring counting (the specification side of the counting claim) -/

/-- Brute-force count of the positions of a string at which `t` occurs: one for every
suffix that starts with `t`. -/
def occurrences (t : List Int) : List Int → Nat
  | [] => if t = [] then 1 else 0
  | c :: s => (if (c :: s).take t.length = t then 1 else 0) + occurrences t s

/-- The total number of positions, over all the sequences, at which `t` occurs as a window
of length `K`. -/
def window_count (K : Nat) (t : List Int) (seqs : List (List Int)) : Nat :=
  if t.length = K then (seqs.map (occurrences t)).sum else 0

/-- The entries of the table whose text is `t`. -/
def entries_of (kmer_map : Table) (t : List Int) : Table :=
  kmer_map.filter (fun e => e.1.pattern = t)

/-- The count the table holds for the text `t`: the sum of the counts of the entries of text
`t`, which is 0 when there is none and the count of the entry when there is exactly one. -/
def count_of (kmer_map : Table) (t : List Int) : Int :=
  ((entries_of kmer_map t).map (fun e => e.2)).sum

/-! ## Auxiliary notions for the counting proof -/

/-- The key of a window when its hash is calculated from scratch. -/
def scratch_key (K : Nat) (w : List Int) : kmer :=
  { pattern := w, hash_value := (calculate_hash K w (-1) 0).2 }

/-- The windows of length `K` of a sequence, from left to right. -/
def windows (K : Nat) (s : List Int) : List (List Int) :=
  (List.range (s.length + 1 - K)).map (fun i => substr s i K)

/-- The table after the windows of a list are counted one by one under their scratch
keys. -/
def tally (K : Nat) (ws : List (List Int)) (m : Table) : Table :=
  ws.foldl (fun acc w => (increment acc (scratch_key K w)).1) m

/-- Every key of the table carries the hash its text has from scratch. -/
def hash_ok (K : Nat) (m : Table) : Prop :=
  ∀ e ∈ m, e.1.hash_value = (calculate_hash K e.1.pattern (-1) 0).2

/-- The texts of the entries of a table, in order. -/
def patterns (m : Table) : List (List Int) := m.map (fun e => e.1.pattern)

/-! ## Global variables -/

/-- The global variables of the program. -/
structure Globals where
  N : Int
  KMER_SIZE : Nat
  MAP_SIZE_LIMIT : Int
  FAIRNESS_CONST : ℚ
  FAIR_THRESHOLD_MODE : Bool
  LINE_COUNT : Nat
deriving DecidableEq

/-- The default settings the globals are initialised with. -/
def default_globals : Globals :=
  { N := 25, KMER_SIZE := 30, MAP_SIZE_LIMIT := 1000, FAIRNESS_CONST := 5 / 4,
    FAIR_THRESHOLD_MODE := true, LINE_COUNT := 0 }

/-- Conversion of an `int` to `unsigned long` (64 bits), as the usual arithmetic conversions
do when an `int` meets an `unsigned long` operand. -/
def to_ulong (x : Int) : Nat := (x % 2 ^ 64).toNat

/-- The largest value of an `int`. -/
def INT_MAX : Int := 2147483647

/-- The smallest value of an `int`. -/
def INT_MIN : Int := -2147483648

/-- The integral part of a fractional value: the fractional part is discarded. -/
def trunc_to_int (x : ℚ) : Int := if 0 ≤ x then ⌊x⌋ else ⌈x⌉

/-- Rounding to the nearest integer, a tie going to the even one. -/
def round_half_even (x : ℚ) : Int :=
  if x - ⌊x⌋ < 1 / 2 then ⌊x⌋
  else if 1 / 2 < x - ⌊x⌋ then ⌊x⌋ + 1
  else if ⌊x⌋ % 2 = 0 then ⌊x⌋
  else ⌊x⌋ + 1

/-- The binary32 value nearest to `x`, ties to even: `x` is rounded to a multiple of
`2 ^ (e - 23)`, where `e` is the exponent of `x`, at least -126 (below it the values are
subnormal). This is the value a `float` holds after `x` is stored in it. -/
def to_float (x : ℚ) : ℚ :=
  if x = 0 then 0
  else
    let e : Int := max (Int.log 2 |x|) (-126)
    let ulp : ℚ := 2 ^ (e - 23)
    (round_half_even (x / ulp) : ℚ) * ulp

/-- Conversion of a `float` to `int`: the fractional part is discarded; a value out of the
range of `int` gives `INT_MIN`. -/
def float_to_int (x : ℚ) : Int :=
  if INT_MIN ≤ trunc_to_int x ∧ trunc_to_int x ≤ INT_MAX then trunc_to_int x else INT_MIN

/-- The initialiser of line 158, `(LINE_COUNT / most_common_count) * FAIRNESS_CONST`
converted to `int`: the `unsigned long` quotient is converted to `float`, multiplied by the
`float` constant in binary32, and the product is converted to `int`. -/
def fairness_factor (LINE_COUNT : Nat) (most_common_count : Int) (FAIRNESS_CONST : ℚ) :
    Int :=
  float_to_int
    (to_float (to_float ((LINE_COUNT / to_ulong most_common_count : Nat) : ℚ)
      * to_float FAIRNESS_CONST))

/-! ## `clean_map` -/

/-- The erase loop of the fair threshold mode, in iteration order. The division
`MAP_SIZE_LIMIT / it->second` is undefined for a count of 0. -/
def fair_erase (MAP_SIZE_LIMIT fairness_factor : Int) : Table → Option Table
  | [] => some []
  | (k, v) :: rest =>
    if v = 0 then none
    else
      let x_factor : Int := MAP_SIZE_LIMIT.tdiv v
      match fair_erase MAP_SIZE_LIMIT fairness_factor rest with
      | none => none
      | some r => if fairness_factor < x_factor then some r else some ((k, v) :: r)

/-- The erase loop of the second threshold mode, in iteration order. -/
def harsh_erase (threshold : Int) : Table → Table
  | [] => []
  | (k, v) :: rest =>
    if v ≤ threshold then harsh_erase threshold rest
    else (k, v) :: harsh_erase threshold rest

/-- The first block of `clean_map`: the erase loop of the threshold mode in force, or
`none` when it divides by zero. -/
def erase_entries (g : Globals) (kmer_map : Table) (most_common_count : Int) :
    Option Table :=
  if g.FAIR_THRESHOLD_MODE then
    if to_ulong most_common_count = 0 then none
    else
      fair_erase g.MAP_SIZE_LIMIT
        (fairness_factor g.LINE_COUNT most_common_count g.FAIRNESS_CONST) kmer_map
  else
    let threshold : Int := most_common_count.tdiv 20 + 1
    some (harsh_erase threshold kmer_map)

/-- The last block of `clean_map`: `MAP_SIZE_LIMIT` is increased when the pass could not
eliminate more than a tenth of the map, and the threshold mode is changed at 15000. -/
def raise_limit (g : Globals) (map_size_before map_size_after : Int) : Globals :=
  if ¬ ((map_size_before - map_size_after) > map_size_before.tdiv 10) then
    let limit : Int := g.MAP_SIZE_LIMIT + 1000
    if limit ≥ 15000 then
      { g with MAP_SIZE_LIMIT := limit, FAIR_THRESHOLD_MODE := false }
    else
      { g with MAP_SIZE_LIMIT := limit }
  else g

/-- The function `clean_map`: the globals and the table it leaves, or `none` when it
divides by zero. -/
def clean_map (g : Globals) (kmer_map : Table) (most_common_count : Int) :
    Option (Globals × Table) :=
  let map_size_before : Int := kmer_map.length
  match erase_entries g kmer_map most_common_count with
  | none => none
  | some m =>
    let map_size_after : Int := m.length
    some (raise_limit g map_size_before map_size_after, m)

/-! ## The eviction rules in the words of the specification -/

/-- The fair-mode rule as the specification words it, over exact rationals:
`floor(lines_seen / running_max_count) * fairness_const < floor(capacity_limit / count)`. -/
def spec_fair_evicts (lines_seen : Nat) (running_max_count : Int) (fairness_const : ℚ)
    (capacity_limit count : Int) : Bool :=
  decide (((⌊(lines_seen : ℚ) / (running_max_count : ℚ)⌋ : Int) : ℚ) * fairness_const
    < ((⌊(capacity_limit : ℚ) / (count : ℚ)⌋ : Int) : ℚ))

/-- The harsh-mode rule as the specification words it:
`count <= floor(running_max_count / 20) + 1`. -/
def spec_harsh_evicts (running_max_count count : Int) : Bool :=
  decide ((count : ℚ) ≤ ((⌊(running_max_count : ℚ) / 20⌋ : Int) : ℚ) + 1)

/-- The rational `x` is a binary32 value with nothing to round: an integer of less than 24
bits times a power of two that is at least `2 ^ (-149)`. -/
def exact_in_binary32 (x : ℚ) : Prop :=
  ∃ a k : Int, |a| < 2 ^ 24 ∧ -149 ≤ k ∧ x = (a : ℚ) * 2 ^ k

/-! ## Ranking and top-N extraction -/

/-- The copy loop of `write_map_to_file` and `extract_top_N_kmers`: the pairs
`(pattern, count)` of the table, in iteration order. -/
def copy_to_vector (kmer_map : Table) : List (List Int × Int) :=
  kmer_map.map (fun i => (i.1.pattern, i.2))

/-- The lambda both functions pass to `sort`: decreasing order of the hit count. -/
def by_hit_count (seq1 seq2 : List Int × Int) : Bool := seq1.2 > seq2.2

/-- What `std::sort` guarantees when it is called with the comparison `by_hit_count`: the
result is a rearrangement of the argument in which no element is ordered before an earlier
one. How elements of equal count are arranged is left open. -/
def sort_contract (sort : List (List Int × Int) → List (List Int × Int)) : Prop :=
  ∀ v, (sort v).Perm v ∧ (sort v).Pairwise (fun a b => by_hit_count b a = false)

/-- One implementation of `std::sort` with the comparison `by_hit_count`. -/
def insertion_sort (v : List (List Int × Int)) : List (List Int × Int) :=
  v.insertionSort (fun a b => by_hit_count b a = false)

/-- The function `write_map_to_file`: the records `(pattern, count)` it writes, in order. -/
def write_map_to_file (sort : List (List Int × Int) → List (List Int × Int))
    (kmer_map : Table) : List (List Int × Int) :=
  sort (copy_to_vector kmer_map)

/-- The function `extract_top_N_kmers`: the records it prints, in order. -/
def extract_top_N_kmers (sort : List (List Int × Int) → List (List Int × Int))
    (kmer_map : Table) (N : Int) : List (List Int × Int) :=
  let subseq_vector := sort (copy_to_vector kmer_map)
  (List.range (min N (subseq_vector.length : Int)).toNat).filterMap
    (fun i => subseq_vector[i]?)

/-! ## `main` -/

/-- The variables of `main` and the globals. -/
structure MainState where
  g : Globals
  kmer_map : Table
  most_common_kmer_count : Int
deriving DecidableEq

/-- The function `isspace` for the codes of the classic locale. -/
def isspace (c : Int) : Bool := c = 32 ∨ (9 ≤ c ∧ c ≤ 13)

/-- The extraction `ss >> dna_seq`: leading white space is skipped, then the characters up
to the next white space are taken. -/
def first_word (line : List Int) : List Int :=
  (line.dropWhile isspace).takeWhile (fun c => !isspace c)

/-- The part of the loop body of `main` that handles a line of DNA data, up to the test of
the table size: the new state and whether the loop goes on (`false` is the `break`). -/
def handle_seq_line (st : MainState) (line : List Int) : MainState × Bool :=
  if line ≠ [] then
    let dna_seq := first_word line
    let r := process_seq st.g.KMER_SIZE dna_seq st.kmer_map st.most_common_kmer_count
    let temp := r.1
    if temp = -1 then ({ st with kmer_map := r.2 }, false)
    else if temp > st.most_common_kmer_count then
      ({ st with kmer_map := r.2, most_common_kmer_count := temp }, true)
    else ({ st with kmer_map := r.2 }, true)
  else (st, true)

/-- The call `clean_map(kmer_map, most_common_kmer_count)` on the state of `main`. -/
def run_clean_map (st : MainState) : Option MainState :=
  match clean_map st.g st.kmer_map st.most_common_kmer_count with
  | none => none
  | some r => some { st with g := r.1, kmer_map := r.2 }

/-- One iteration of the `while` loop of `main` on the line `getline` delivered: the new
state and whether the loop goes on, or `none` when `clean_map` divides by zero. -/
def main_body (st : MainState) (line : List Int) : Option (MainState × Bool) :=
  let st1 : MainState := { st with g := { st.g with LINE_COUNT := st.g.LINE_COUNT + 1 } }
  if st1.g.LINE_COUNT % 4 ≠ 2 then some (st1, true)
  else
    let r := handle_seq_line st1 line
    if r.2 = false then some (r.1, false)
    else if r.1.kmer_map.length ≥ to_ulong r.1.g.MAP_SIZE_LIMIT then
      match run_clean_map r.1 with
      | none => none
      | some st2 => some (st2, true)
    else some (r.1, true)

/-- The `while` loop of `main` over the lines `getline` delivers, in order. -/
def main_loop : List (List Int) → MainState → Option MainState
  | [], st => some st
  | line :: rest, st =>
    match main_body st line with
    | none => none
    | some (st1, true) => main_loop rest st1
    | some (st1, false) => some st1

/-- The state `main` starts the loop with, after the arguments are parsed. -/
def initial_state (kmer_size : Nat) (top_count : Int) (fairness_const : ℚ) : MainState :=
  { g := { default_globals with
             KMER_SIZE := kmer_size, N := top_count, FAIRNESS_CONST := fairness_const }
    kmer_map := []
    most_common_kmer_count := 0 }

/-- The result of a run of `main`. -/
structure Output where
  final : MainState
  file_records : List (List Int × Int)
  printed : List (List Int × Int)

/-- The function `main` from the point where the arguments are parsed: the loop over the
lines of the file (no line at all when the file cannot be read), the final `clean_map`,
`write_map_to_file` and `extract_top_N_kmers`. -/
def main (sort : List (List Int × Int) → List (List Int × Int))
    (kmer_size : Nat) (top_count : Int) (fairness_const : ℚ)
    (lines : List (List Int)) : Option Output :=
  match main_loop lines (initial_state kmer_size top_count fairness_const) with
  | none => none
  | some st =>
    match run_clean_map st with
    | none => none
    | some st1 =>
      some { final := st1
             file_records := write_map_to_file sort st1.kmer_map
             printed := extract_top_N_kmers sort st1.kmer_map st1.g.N }

/-- The code of each character of a text. -/
def codes (text : String) : List Int := text.toList.map (fun c => (c.toNat : Int))

/-! ## Concrete inputs -/

/-- The sequence line of Scenario A. -/
def scenario_A_seq : List Int := codes "ACGTACGTACGTACGTACGTACGTACGTAA"

/-- A FASTQ file with two records whose sequence lines are the two lines of Scenario A, as
the lines `getline` delivers: four lines per record, the sequence second, and the empty
read at the end of the file. -/
def scenario_A_file : List (List Int) :=
  [codes "@read1", scenario_A_seq, codes "+", codes "IIIIIIIIIIIIIIIIIIIIIIIIIIIIII",
   codes "@read2", scenario_A_seq, codes "+", codes "IIIIIIIIIIIIIIIIIIIIIIIIIIIIII",
   []]

/-- The state of `main` after its loop has read `scenario_A_file` with K = 30, N = 1. -/
def scenario_A_loaded : MainState :=
  { g := { default_globals with KMER_SIZE := 30, N := 1, LINE_COUNT := 9 }
    kmer_map := [({ pattern := scenario_A_seq, hash_value := 2353 }, 2)]
    most_common_kmer_count := 2 }

/-- A FASTQ file with one record, of sequence `ACGT`. -/
def one_read_file : List (List Int) :=
  [codes "@read1", codes "ACGT", codes "+", codes "IIII"]

/-- The state of `main` after its loop has read `one_read_file` with K = 4, N = 25. -/
def one_read_loaded : MainState :=
  { g := { default_globals with KMER_SIZE := 4, LINE_COUNT := 4 }
    kmer_map := [({ pattern := codes "ACGT", hash_value := 507 }, 1)]
    most_common_kmer_count := 1 }

/-- The state `main` is in after it has read `one_read_file` with K = 4, its `clean_map` pass
has emptied the table, and `j` further `clean_map` passes have run on the empty table. -/
def one_read_drained (j : Nat) : MainState :=
  { g := { default_globals with
             KMER_SIZE := 4, LINE_COUNT := 4,
             MAP_SIZE_LIMIT := 1000 + 1000 * (j : Int),
             FAIR_THRESHOLD_MODE := decide (1000 + 1000 * (j : Int) < 15000) }
    kmer_map := []
    most_common_kmer_count := 1 }

/-! ## Steps of a run -/

/-- One step of the engine: a line is counted, a sequence is ingested, or an eviction pass
runs. Every iteration of the loop of `main` and its final pass are made of such steps. -/
inductive Step : MainState → MainState → Prop
  | count_line (st : MainState) :
      Step st { st with g := { st.g with LINE_COUNT := st.g.LINE_COUNT + 1 } }
  | ingest (st : MainState) (line : List Int) :
      Step st (handle_seq_line st line).1
  | evict (st st1 : MainState) (h : run_clean_map st = some st1) :
      Step st st1

/-- The states reachable from `st0` by any sequence of steps. -/
inductive Reachable (st0 : MainState) : MainState → Prop
  | start : Reachable st0 st0
  | step (st st1 : MainState) (h : Reachable st0 st) (hs : Step st st1) : Reachable st0 st1

/-! ## Counting the lines of a run -/

/-- The number of iterations the loop of `main` performs on the lines `getline` delivers:
it stops after the iteration that breaks. -/
def lines_read : List (List Int) → MainState → Nat
  | [], _ => 0
  | line :: rest, st =>
    match main_body st line with
    | some (st1, true) => 1 + lines_read rest st1
    | _ => 1

/-- The number of sequence lines the loop of `main` ingests, in the words of the
specification: the iterations that pass a sequence of at least `KMER_SIZE` characters to
`process_seq`, whose windows are then counted. -/
def sequences_ingested : List (List Int) → MainState → Nat
  | [], _ => 0
  | line :: rest, st =>
    let ingested : Nat :=
      if (st.g.LINE_COUNT + 1) % 4 = 2 ∧ line ≠ [] ∧
          st.g.KMER_SIZE ≤ (first_word line).length then 1 else 0
    match main_body st line with
    | some (st1, true) => ingested + sequences_ingested rest st1
    | _ => ingested

/-- A FASTQ file with two records, of sequences `AC` and `CA`, without a final newline. -/
def two_reads_file : List (List Int) :=
  [codes "@read1", codes "AC", codes "+", codes "II",
   codes "@read2", codes "CA", codes "+", codes "II"]

/-- The state of `main` after its loop has read `two_reads_file` with K = 2, N = 25. -/
def two_reads_loaded : MainState :=
  { g := { default_globals with KMER_SIZE := 2, LINE_COUNT := 8 }
    kmer_map := [({ pattern := codes "AC", hash_value := 331 }, 1),
                 ({ pattern := codes "CA", hash_value := 329 }, 1)]
    most_common_kmer_count := 1 }

/-- A FASTQ file whose first sequence, `ACGT`, is shorter than a k-mer size of 30. -/
def short_read_file : List (List Int) :=
  [codes "@read1", codes "ACGT", codes "+", codes "IIII", []]

/-! ## Lemmas on the loop of `process_seq` -/

theorem seq_loop_eq_foldl (K : Nat) (s : List Int) :
    ∀ (n fuel i : Nat) (st : SeqLoop), i + n + K = s.length + 1 → n ≤ fuel →
      seq_loop K s fuel i st = (List.range' i n).foldl (seq_body K s) st := by
  intro n
  induction n with
  | zero =>
    intro fuel i st h _
    cases fuel with
    | zero => simp [seq_loop]
    | succ f =>
      have : ¬ (i + K ≤ s.length) := by omega
      simp [seq_loop, this]
  | succ n ih =>
    intro fuel i st h hf
    cases fuel with
    | zero => omega
    | succ f =>
      have : i + K ≤ s.length := by omega
      simp only [seq_loop, this, if_true, List.range', List.foldl_cons]
      exact ih f (i + 1) _ (by omega) (by omega)

theorem process_seq_eq_loop_state (K : Nat) (s : List Int) (m : Table) (mc : Int)
    (h : K ≤ s.length) :
    process_seq K s m mc =
      ((loop_state K s m mc (s.length + 1 - K)).most_common_count,
       (loop_state K s m mc (s.length + 1 - K)).kmer_map) := by
  have hlt : ¬ s.length < K := by omega
  simp only [process_seq, hlt, if_false, loop_state]
  rw [seq_loop_eq_foldl K s (s.length + 1 - K) (s.length + 1) 0 _ (by omega) (by omega)]
  rw [List.range_eq_range']

theorem loop_state_succ (K : Nat) (s : List Int) (m : Table) (mc : Int) (i : Nat) :
    loop_state K s m mc (i + 1) = seq_body K s (loop_state K s m mc i) i := by
  simp [loop_state, List.range_succ]

/-! ## Lemmas on strings and on `calculate_hash` -/

theorem back_append_singleton (l : List Int) (x : Int) : back (l ++ [x]) = x := by
  simp [back]

theorem substr_length (s : List Int) (i K : Nat) (h : i + K ≤ s.length) :
    (substr s i K).length = K := by
  simp [substr]; omega

theorem take_slide (a : Int) (t : List Int) (K : Nat) (h1 : 1 ≤ K) (h2 : K ≤ t.length) :
    (t.take K).sum = ((a :: t).take K).sum + back (t.take K) - a := by
  obtain ⟨k, rfl⟩ : ∃ k, K = k + 1 := ⟨K - 1, by omega⟩
  have hk : k < t.length := by omega
  have h3 : t.take (k + 1) = t.take k ++ [t[k]] := by
    rw [List.take_succ, List.getElem?_eq_getElem hk]; rfl
  rw [List.take_succ_cons, h3, back_append_singleton]
  simp only [List.sum_append, List.sum_cons, List.sum_nil]
  omega

theorem substr_slide (s : List Int) (i K : Nat) (h1 : 1 ≤ K) (h : i + 1 + K ≤ s.length) :
    (substr s (i + 1) K).sum =
      (substr s i K).sum + back (substr s (i + 1) K) - charAt (substr s i K) 0 := by
  have hi : i < s.length := by omega
  have hd : s.drop i = s[i] :: s.drop (i + 1) := List.drop_eq_getElem_cons hi
  have hl : K ≤ (s.drop (i + 1)).length := by simp; omega
  have h0 : charAt (substr s i K) 0 = s[i] := by
    obtain ⟨k, rfl⟩ : ∃ k, K = k + 1 := ⟨K - 1, by omega⟩
    simp only [charAt, substr]
    rw [hd, List.take_succ_cons]
    rfl
  rw [h0]
  simp only [substr, hd]
  exact take_slide s[i] (s.drop (i + 1)) K h1 hl

theorem calculate_hash_of_slide (K : Nat) (w : List Int) (p c : Int)
    (h : p ≠ -1 → p + back w - c = w.sum) :
    calculate_hash K w p c =
      (w.sum, w.sum + front w + back w + charAt w (K / 2)) := by
  by_cases hp : p = -1
  · subst hp
    have hf : w.foldl (fun acc c => acc + c) 0 = w.sum := by rw [List.sum_eq_foldl]
    simp only [calculate_hash, ne_eq, not_true_eq_false, if_false]
    rw [hf]
  · simp only [calculate_hash, ne_eq, hp, not_false_eq_true, if_true]
    rw [h hp]

theorem calculate_hash_scratch (K : Nat) (w : List Int) (c : Int) :
    calculate_hash K w (-1) c =
      (w.sum, w.sum + front w + back w + charAt w (K / 2)) :=
  calculate_hash_of_slide K w (-1) c (fun h => absurd rfl h)

theorem loop_state_prev (K : Nat) (s : List Int) (m : Table) (mc : Int) (h1 : 1 ≤ K) :
    ∀ i : Nat, i + K ≤ s.length →
      (loop_state K s m mc (i + 1)).prev_hash = (substr s i K).sum ∧
      (loop_state K s m mc (i + 1)).prev_first_char = charAt (substr s i K) 0 := by
  intro i
  induction i with
  | zero =>
    intro _
    rw [loop_state_succ]
    simp only [seq_body, loop_state, List.range_zero, List.foldl_nil]
    rw [calculate_hash_scratch]
    refine ⟨?_, ?_⟩ <;> first | rfl | trivial
  | succ i ih =>
    intro h
    obtain ⟨hp, hc⟩ := ih (by omega)
    rw [loop_state_succ]
    simp only [seq_body]
    rw [hp, hc, calculate_hash_of_slide K _ _ _
      (fun _ => (substr_slide s i K h1 (by omega)).symm)]
    refine ⟨?_, ?_⟩ <;> first | rfl | trivial

theorem hash_pair_at_eq (K : Nat) (s : List Int) (m : Table) (mc : Int) (i : Nat)
    (hK : 1 ≤ K) (hi : i + K ≤ s.length) :
    hash_pair_at K s m mc i =
      ((substr s i K).sum,
       (substr s i K).sum + front (substr s i K) + back (substr s i K)
         + charAt (substr s i K) (K / 2)) := by
  cases i with
  | zero =>
    simp only [hash_pair_at, loop_state, List.range_zero, List.foldl_nil]
    exact calculate_hash_scratch K _ 0
  | succ j =>
    obtain ⟨hp, hc⟩ := loop_state_prev K s m mc hK j (by omega)
    simp only [hash_pair_at]
    rw [hp, hc]
    exact calculate_hash_of_slide K _ _ _ (fun _ => (substr_slide s j K hK (by omega)).symm)

/-! ## C1: rolling hash equivalence -/

/-- C1: for every K >= 1, every sequence of length >= K and every window position
i <= length - K, the pair (raw_hash, actual_hash) that iteration i of process_seq obtains
by chaining calculate_hash with the previous raw hash equals the pair calculate_hash
returns from scratch (prev_hash = -1) for that window; the window has length K, its raw
hash is the sum of its character codes and its signature hash is the raw hash plus the
codes of its first character, its last character and its character at index K / 2. -/
theorem rolling_hash_equivalence (K : Nat) (s : List Int) (m : Table) (mc : Int) (i : Nat)
    (hK : 1 ≤ K) (hlen : K ≤ s.length) (hi : i ≤ s.length - K) :
    hash_pair_at K s m mc i = calculate_hash K (substr s i K) (-1) 0 ∧
    (substr s i K).length = K ∧
    hash_pair_at K s m mc i =
      ((substr s i K).sum,
       (substr s i K).sum + front (substr s i K) + back (substr s i K)
         + charAt (substr s i K) (K / 2)) := by
  have h : i + K ≤ s.length := by omega
  refine ⟨?_, substr_length s i K h, hash_pair_at_eq K s m mc i hK h⟩
  rw [hash_pair_at_eq K s m mc i hK h, calculate_hash_scratch]

theorem rolling_hash_equivalence_witness :
    hash_pair_at 2 [65, 67, 71, 84] [] 0 2 = calculate_hash 2 (substr [65, 67, 71, 84] 2 2) (-1) 0 ∧
    (substr [65, 67, 71, 84] 2 2).length = 2 ∧
    hash_pair_at 2 [65, 67, 71, 84] [] 0 2 =
      ((substr [65, 67, 71, 84] 2 2).sum,
       (substr [65, 67, 71, 84] 2 2).sum + front (substr [65, 67, 71, 84] 2 2)
         + back (substr [65, 67, 71, 84] 2 2) + charAt (substr [65, 67, 71, 84] 2 2) (2 / 2)) :=
  rolling_hash_equivalence 2 [65, 67, 71, 84] [] 0 2 (by decide) (by decide) (by decide)

/-! ## Lemmas on counting -/

theorem loop_state_kmer_map (K : Nat) (s : List Int) (m : Table) (mc : Int) (hK : 1 ≤ K) :
    ∀ n : Nat, n + K ≤ s.length + 1 →
      (loop_state K s m mc n).kmer_map =
        tally K ((List.range n).map (fun i => substr s i K)) m := by
  intro n
  induction n with
  | zero => intro _; simp [loop_state, tally]
  | succ n ih =>
    intro h
    have hh := hash_pair_at_eq K s m mc n hK (by omega)
    simp only [hash_pair_at] at hh
    rw [loop_state_succ, List.range_succ, List.map_append, tally, List.foldl_append]
    simp only [seq_body, List.map_cons, List.map_nil, List.foldl_cons, List.foldl_nil]
    rw [hh, ih (by omega)]
    simp only [tally, scratch_key, calculate_hash_scratch]

theorem process_seq_kmer_map (K : Nat) (s : List Int) (m : Table) (mc : Int) (hK : 1 ≤ K)
    (h : K ≤ s.length) : (process_seq K s m mc).2 = tally K (windows K s) m := by
  rw [process_seq_eq_loop_state K s m mc h]
  exact loop_state_kmer_map K s m mc hK _ (by omega)

theorem equals_scratch_key (K : Nat) (k : kmer) (w : List Int)
    (hk : k.hash_value = (calculate_hash K k.pattern (-1) 0).2) :
    k.equals (scratch_key K w) = true ↔ k.pattern = w := by
  constructor
  · intro h
    by_contra hne
    have hne2 : ¬ w = k.pattern := fun e => hne e.symm
    simp [kmer.equals, scratch_key, hne2] at h
  · intro h
    subst h
    simp [kmer.equals, scratch_key, hk]

theorem count_of_cons (e : kmer × Int) (m : Table) (t : List Int) :
    count_of (e :: m) t = (if e.1.pattern = t then e.2 else 0) + count_of m t := by
  by_cases h : e.1.pattern = t <;> simp [count_of, entries_of, List.filter_cons, h]

theorem increment_scratch (K : Nat) (w t : List Int) :
    ∀ m : Table, hash_ok K m →
      hash_ok K (increment m (scratch_key K w)).1 ∧
      count_of (increment m (scratch_key K w)).1 t
        = count_of m t + (if w = t then 1 else 0) ∧
      patterns (increment m (scratch_key K w)).1
        = (if w ∈ patterns m then patterns m else patterns m ++ [w]) := by
  intro m
  induction m with
  | nil =>
    intro _
    refine ⟨?_, ?_, ?_⟩
    · intro e he
      simp only [increment, List.mem_singleton] at he
      subst he
      rfl
    · simp only [increment, count_of_cons]
      by_cases h : w = t <;> simp [scratch_key, count_of, entries_of, h]
    · simp [increment, patterns, scratch_key]
  | cons e m ih =>
    intro hok
    obtain ⟨k, v⟩ := e
    have hk : k.hash_value = (calculate_hash K k.pattern (-1) 0).2 :=
      hok (k, v) (List.mem_cons_self _ _)
    have hok2 : hash_ok K m := fun e he => hok e (List.mem_cons_of_mem _ he)
    obtain ⟨ih1, ih2, ih3⟩ := ih hok2
    by_cases heq : k.equals (scratch_key K w) = true
    · have hp : k.pattern = w := (equals_scratch_key K k w hk).1 heq
      simp only [increment, heq, if_true]
      refine ⟨?_, ?_, ?_⟩
      · intro e he
        rcases List.mem_cons.1 he with h | h
        · subst h; exact hk
        · exact hok2 e h
      · simp only [count_of_cons, hp]
        by_cases h : w = t
        · simp [h]; omega
        · simp [h]
      · simp [patterns, hp]
    · have hp : ¬ k.pattern = w := fun h => heq ((equals_scratch_key K k w hk).2 h)
      have hp2 : ¬ w = k.pattern := fun h => hp h.symm
      simp only [increment, heq]
      refine ⟨?_, ?_, ?_⟩
      · intro e he
        rcases List.mem_cons.1 he with h | h
        · subst h; exact hk
        · exact ih1 e h
      · simp only [count_of_cons, Bool.false_eq_true, if_false]
        rw [ih2]; omega
      · simp only [patterns, Bool.false_eq_true, if_false, List.map_cons, List.mem_cons, hp2,
          false_or] at ih3 ⊢
        rw [ih3]
        split <;> simp

theorem tally_spec (K : Nat) (t : List Int) :
    ∀ (ws : List (List Int)) (m : Table), hash_ok K m → (patterns m).Nodup →
      hash_ok K (tally K ws m) ∧ (patterns (tally K ws m)).Nodup ∧
      count_of (tally K ws m) t = count_of m t + (ws.countP (fun w => w = t) : Int) := by
  intro ws
  induction ws with
  | nil => intro m h1 h2; simp [tally, h1, h2]
  | cons w ws ih =>
    intro m h1 h2
    obtain ⟨i1, i2, i3⟩ := increment_scratch K w t m h1
    have hnd : (patterns (increment m (scratch_key K w)).1).Nodup := by
      rw [i3]
      by_cases hw : w ∈ patterns m
      · simpa [hw] using h2
      · simp only [hw, if_false]
        exact List.Nodup.append h2 (List.nodup_singleton w) (by simpa using hw)
    obtain ⟨j1, j2, j3⟩ := ih _ i1 hnd
    refine ⟨j1, j2, ?_⟩
    have ht : tally K (w :: ws) m = tally K ws (increment m (scratch_key K w)).1 := rfl
    rw [ht, j3, i2, List.countP_cons]
    by_cases h : w = t
    · simp [h]; omega
    · simp [h]

theorem windows_nil (K : Nat) (hK : 1 ≤ K) : windows K [] = [] := by
  have h : ([] : List Int).length + 1 - K = 0 := by
    show 0 + 1 - K = 0
    omega
  simp only [windows, h, List.range_zero, List.map_nil]

theorem windows_short (K : Nat) (s : List Int) (h : s.length < K) : windows K s = [] := by
  have h0 : s.length + 1 - K = 0 := by omega
  simp [windows, h0]

theorem windows_cons (K : Nat) (c : Int) (s : List Int) (h : K ≤ s.length + 1) :
    windows K (c :: s) = (c :: s).take K :: windows K s := by
  have h0 : (c :: s).length + 1 - K = (s.length + 1 - K) + 1 := by simp; omega
  simp only [windows, h0, List.range_succ_eq_map, List.map_cons, List.map_map]
  refine congrArg₂ _ ?_ ?_
  · simp [substr]
  · apply List.map_congr_left
    intro i _
    simp [substr]

theorem count_windows (t : List Int) (K : Nat) (hK : 1 ≤ K) :
    ∀ s : List Int, (windows K s).countP (fun w => w = t) = if t.length = K then occurrences t s else 0 := by
  intro s
  induction s with
  | nil =>
    rw [windows_nil K hK]
    by_cases h : t.length = K
    · have : t ≠ [] := by intro e; subst e; simp at h; omega
      simp [occurrences, h, this]
    · simp [h]
  | cons c s ih =>
    by_cases hlen : K ≤ s.length + 1
    · rw [windows_cons K c s hlen, List.countP_cons, ih]
      by_cases h : t.length = K
      · simp only [h, if_true, occurrences]
        by_cases e : List.take K (c :: s) = t
        · simp [e]; omega
        · simp [e]
      · have e : ¬ List.take K (c :: s) = t := by
          intro e
          apply h
          rw [← e]
          simp; omega
        simp [h, e]
    · have hs : windows K s = [] := windows_short K s (by omega)
      rw [hs] at ih
      rw [windows_short K (c :: s) (by simp; omega)]
      by_cases h : t.length = K
      · have e : ¬ List.take t.length (c :: s) = t := by
          intro e
          have := congrArg List.length e
          simp at this
          omega
        simp only [h, if_true] at ih
        simp only [h, if_true, occurrences, List.countP_nil]
        rw [h] at e
        simp only [List.countP_nil] at ih
        simp [e, ← ih]
      · simp [h]

theorem process_all_spec (K : Nat) (t : List Int) (hK : 1 ≤ K) :
    ∀ (seqs : List (List Int)) (m : Table) (mc : Int),
      (∀ s ∈ seqs, K ≤ s.length) → hash_ok K m → (patterns m).Nodup →
      (patterns (process_all K seqs m mc).2).Nodup ∧
      count_of (process_all K seqs m mc).2 t
        = count_of m t + (((seqs.map (fun s => (windows K s).countP (fun w => w = t))).sum : Nat) : Int) := by
  intro seqs
  induction seqs with
  | nil => intro m mc _ _ h2; simp [process_all, h2]
  | cons s seqs ih =>
    intro m mc hl h1 h2
    have hs : K ≤ s.length := hl s (List.mem_cons_self _ _)
    obtain ⟨j1, j2, j3⟩ := tally_spec K t (windows K s) m h1 h2
    simp only [process_all]
    rw [process_seq_kmer_map K s m mc hK hs]
    obtain ⟨k1, k2⟩ := ih (tally K (windows K s) m)
      (if (process_seq K s m mc).1 > mc then (process_seq K s m mc).1 else mc)
      (fun s hs => hl s (List.mem_cons_of_mem _ hs)) j1 j2
    refine ⟨k1, ?_⟩
    rw [k2, j3]
    simp only [List.map_cons, List.sum_cons]
    push_cast
    omega

theorem entries_of_eq_nil (t : List Int) :
    ∀ m : Table, t ∉ patterns m → entries_of m t = [] := by
  intro m
  induction m with
  | nil => intro _; rfl
  | cons e m ih =>
    intro h
    simp only [patterns, List.map_cons, List.mem_cons, not_or] at h
    have he : ¬ e.1.pattern = t := fun x => h.1 x.symm
    have := ih h.2
    simp only [entries_of] at this ⊢
    simp [List.filter_cons, he, this]

theorem entries_of_length (t : List Int) :
    ∀ m : Table, (patterns m).Nodup → (entries_of m t).length ≤ 1 := by
  intro m
  induction m with
  | nil => intro _; simp [entries_of]
  | cons e m ih =>
    intro h
    simp only [patterns, List.map_cons] at h
    obtain ⟨h1, h2⟩ := List.nodup_cons.1 h
    by_cases he : e.1.pattern = t
    · have hn : entries_of m t = [] := entries_of_eq_nil t m (by rw [← he]; exact h1)
      simp only [entries_of] at hn ⊢
      simp [List.filter_cons, he, hn]
    · have := ih h2
      simp only [entries_of] at this ⊢
      simpa [List.filter_cons, he] using this

/-! ## C2: counting without eviction -/

/-- C2: starting from the empty table and applying process_seq to every sequence of a list
whose sequences all have length >= K (K >= 1), with no eviction pass in between, for every
string t the table holds at most one entry whose text is t, and the count of that entry
(0 when there is none) is the total number of positions, over all the sequences, at which
t occurs as a window of length K. -/
theorem counting_correctness (K : Nat) (seqs : List (List Int)) (mc : Int) (t : List Int)
    (hK : 1 ≤ K) (hlen : ∀ s ∈ seqs, K ≤ s.length) :
    (entries_of (process_all K seqs [] mc).2 t).length ≤ 1 ∧
    count_of (process_all K seqs [] mc).2 t = (window_count K t seqs : Int) := by
  have hok : hash_ok K [] := fun e he => absurd he (List.not_mem_nil e)
  obtain ⟨h1, h2⟩ := process_all_spec K t hK seqs [] mc hlen hok (by simp [patterns])
  refine ⟨entries_of_length t _ h1, ?_⟩
  rw [h2]
  have hc : (seqs.map (fun s => (windows K s).countP (fun w => w = t))).sum = window_count K t seqs := by
    simp only [window_count]
    by_cases h : t.length = K
    · simp only [h, if_true]
      congr 1
      apply List.map_congr_left
      intro s _
      rw [count_windows t K hK s]
      simp [h]
    · simp only [h, if_false]
      have : ∀ s : List Int, (windows K s).countP (fun w => w = t) = 0 := by
        intro s; rw [count_windows t K hK s]; simp [h]
      simp [this]
  rw [hc]
  simp [count_of, entries_of]

theorem counting_correctness_witness :
    (∀ s ∈ [[65, 67, 65, 67], [67, 65, 67]], 2 ≤ s.length) ∧
    (entries_of (process_all 2 [[65, 67, 65, 67], [67, 65, 67]] [] 0).2 [65, 67]).length ≤ 1 ∧
    count_of (process_all 2 [[65, 67, 65, 67], [67, 65, 67]] [] 0).2 [65, 67]
      = (window_count 2 [65, 67] [[65, 67, 65, 67], [67, 65, 67]] : Int) :=
  ⟨by decide,
   counting_correctness 2 [[65, 67, 65, 67], [67, 65, 67]] 0 [65, 67] (by decide) (by decide)⟩

/-! ## C3: a sequence shorter than K -/

theorem loop_state_most_common_ge (K : Nat) (s : List Int) (m : Table) (mc : Int) :
    ∀ n : Nat, mc ≤ (loop_state K s m mc n).most_common_count := by
  intro n
  induction n with
  | zero => simp [loop_state]
  | succ n ih =>
    rw [loop_state_succ]
    simp only [seq_body]
    split <;> omega

/-- C3: for every K, every table and every non-negative most_common argument, process_seq
returns -1 if and only if the sequence is shorter than K, and when it does the table is
left exactly as it was. -/
theorem sequence_too_short (K : Nat) (s : List Int) (m : Table) (mc : Int) (hmc : 0 ≤ mc) :
    ((process_seq K s m mc).1 = -1 ↔ s.length < K) ∧
    ((process_seq K s m mc).1 = -1 → (process_seq K s m mc).2 = m) := by
  by_cases h : s.length < K
  · simp [process_seq, h]
  · have hge : K ≤ s.length := by omega
    have h1 := loop_state_most_common_ge K s m mc (s.length + 1 - K)
    rw [process_seq_eq_loop_state K s m mc hge]
    simp only [h, iff_false]
    constructor
    · intro e; rw [e] at h1; omega
    · intro e; rw [e] at h1; omega

theorem sequence_too_short_witness :
    (0 : Int) ≤ 0 ∧
    ((process_seq 30 [65, 67, 71, 84, 65, 67, 71, 84, 65, 67] [] 0).1 = -1 ↔
      [65, 67, 71, 84, 65, 67, 71, 84, 65, 67].length < 30) ∧
    ((process_seq 30 [65, 67, 71, 84, 65, 67, 71, 84, 65, 67] [] 0).1 = -1 →
      (process_seq 30 [65, 67, 71, 84, 65, 67, 71, 84, 65, 67] [] 0).2 = []) :=
  ⟨by decide, sequence_too_short 30 [65, 67, 71, 84, 65, 67, 71, 84, 65, 67] [] 0 (by decide)⟩

/-! ## Lemmas on binary32 rounding -/

theorem round_half_even_int (n : Int) : round_half_even (n : ℚ) = n := by
  simp [round_half_even]

theorem log_two_eq (x : ℚ) (e : Int) (hx : 0 < x) (h1 : (2 : ℚ) ^ e ≤ x)
    (h2 : x < (2 : ℚ) ^ (e + 1)) : Int.log 2 x = e := by
  have hb : 1 < 2 := by decide
  have ha : e ≤ Int.log 2 x := (Int.zpow_le_iff_le_log hb hx).1 (by exact_mod_cast h1)
  have hc : Int.log 2 x < e + 1 := (Int.lt_zpow_iff_log_lt hb hx).1 (by exact_mod_cast h2)
  omega

theorem to_float_eval (x : ℚ) (e n : Int) (h1 : (2 : ℚ) ^ e ≤ |x|)
    (h2 : |x| < (2 : ℚ) ^ (e + 1)) (he : -126 ≤ e)
    (hn : round_half_even (x / 2 ^ (e - 23)) = n) :
    to_float x = (n : ℚ) * 2 ^ (e - 23) := by
  have hpos : (0 : ℚ) < |x| := lt_of_lt_of_le (zpow_pos (by norm_num) e) h1
  have hx : x ≠ 0 := abs_pos.1 hpos
  have hl := log_two_eq |x| e hpos h1 h2
  simp only [to_float, hx, if_false, hl, max_eq_left he, hn]

theorem to_float_exact (m k : Int) (hm : |m| < 2 ^ 24) (hk : -149 ≤ k) :
    to_float ((m : ℚ) * 2 ^ k) = (m : ℚ) * 2 ^ k := by
  by_cases h0 : (m : ℚ) * 2 ^ k = 0
  · simp [to_float, h0]
  · have h2k : (0 : ℚ) < 2 ^ k := zpow_pos (by norm_num) k
    have hpos : (0 : ℚ) < |(m : ℚ) * 2 ^ k| := abs_pos.2 h0
    have hlt : |(m : ℚ) * 2 ^ k| < ((2 : ℕ) : ℚ) ^ (24 + k) := by
      rw [abs_mul, abs_of_pos h2k]
      have h24 : (|(m : ℚ)|) < 2 ^ (24 : Int) := by
        have : ((|m| : Int) : ℚ) < ((2 ^ 24 : Int) : ℚ) := by exact_mod_cast hm
        rw [Int.cast_abs] at this
        norm_num at this ⊢
        exact this
      have := mul_lt_mul_of_pos_right h24 h2k
      rw [← zpow_add₀ (by norm_num : (2 : ℚ) ≠ 0)] at this
      simpa using this
    have hlog : Int.log 2 |(m : ℚ) * 2 ^ k| < 24 + k :=
      (Int.lt_zpow_iff_log_lt (by decide) hpos).1 hlt
    have he : max (Int.log 2 |(m : ℚ) * 2 ^ k|) (-126) - 23 ≤ k := by
      rcases max_cases (Int.log 2 |(m : ℚ) * 2 ^ k|) (-126) with ⟨h, _⟩ | ⟨h, _⟩ <;> rw [h] <;> omega
    simp only [to_float, h0, if_false]
    generalize max (Int.log 2 |(m : ℚ) * 2 ^ k|) (-126) - 23 = u at he
    obtain ⟨d, hd⟩ : ∃ d : Nat, k = u + d := ⟨(k - u).toNat, by omega⟩
    have hdiv : (m : ℚ) * 2 ^ k / 2 ^ u = ((m * 2 ^ d : Int) : ℚ) := by
      rw [hd, zpow_add₀ (by norm_num : (2 : ℚ) ≠ 0)]
      have hu : (2 : ℚ) ^ u ≠ 0 := (zpow_pos (by norm_num) u).ne'
      field_simp
      ring
    rw [hdiv, round_half_even_int]
    rw [hd, zpow_add₀ (by norm_num : (2 : ℚ) ≠ 0), zpow_natCast]
    simp only [Int.cast_mul, Int.cast_pow, Int.cast_ofNat]
    ring

theorem to_float_int (n : Int) (hn : |n| < 2 ^ 24) : to_float (n : ℚ) = n := by
  have := to_float_exact n 0 hn (by decide)
  simpa using this

theorem floor_le_round_half_even (y : ℚ) : ⌊y⌋ ≤ round_half_even y := by
  simp only [round_half_even]
  split
  · exact le_refl _
  · split
    · omega
    · split <;> omega

theorem round_half_even_le_ceil (y : ℚ) : round_half_even y ≤ ⌈y⌉ := by
  simp only [round_half_even]
  split
  · exact Int.floor_le_ceil y
  · rename_i h
    have hlt : ((⌊y⌋ : Int) : ℚ) < y := by
      have := not_lt.1 h
      linarith
    have h1 : ⌊y⌋ + 1 ≤ ⌈y⌉ := Int.add_one_le_ceil_iff.2 hlt
    split
    · exact h1
    · split
      · exact Int.floor_le_ceil y
      · exact h1

theorem to_float_nonneg (x : ℚ) (hx : 0 ≤ x) : 0 ≤ to_float x := by
  by_cases h0 : x = 0
  · simp [to_float, h0]
  · simp only [to_float, h0, if_false]
    have hu : (0 : ℚ) < 2 ^ (max (Int.log 2 |x|) (-126) - 23) := zpow_pos (by norm_num) _
    have hy : (0 : ℚ) ≤ x / 2 ^ (max (Int.log 2 |x|) (-126) - 23) := div_nonneg hx hu.le
    have hf : (0 : Int) ≤ ⌊x / 2 ^ (max (Int.log 2 |x|) (-126) - 23)⌋ := Int.floor_nonneg.2 hy
    have hr := floor_le_round_half_even (x / 2 ^ (max (Int.log 2 |x|) (-126) - 23))
    have : (0 : ℚ) ≤ (round_half_even (x / 2 ^ (max (Int.log 2 |x|) (-126) - 23)) : ℚ) := by
      exact_mod_cast le_trans hf hr
    exact mul_nonneg this hu.le

theorem to_float_ge_of_int (n : Int) (x : ℚ) (h0 : 0 ≤ n) (hn : n ≤ 2 ^ 24)
    (hx : (n : ℚ) ≤ x) : (n : ℚ) ≤ to_float x := by
  by_cases hz : n = 0
  · subst hz
    simpa using to_float_nonneg x (by simpa using hx)
  · have hn1 : (1 : ℚ) ≤ (n : ℚ) := by exact_mod_cast (by omega : (1 : Int) ≤ n)
    have hx1 : (1 : ℚ) ≤ x := le_trans hn1 hx
    have hxpos : (0 : ℚ) < x := by linarith
    have hx0 : x ≠ 0 := hxpos.ne'
    have habs : |x| = x := abs_of_pos hxpos
    have hL0 : 0 ≤ Int.log 2 x :=
      (Int.zpow_le_iff_le_log (by decide) hxpos).1 (by simpa using hx1)
    have hmax : max (Int.log 2 x) (-126) = Int.log 2 x := max_eq_left (by omega)
    simp only [to_float, hx0, if_false, habs, hmax]
    have hu : (0 : ℚ) < 2 ^ (Int.log 2 x - 23) := zpow_pos (by norm_num) _
    have hr := floor_le_round_half_even (x / 2 ^ (Int.log 2 x - 23))
    by_cases hL : Int.log 2 x ≤ 23
    · obtain ⟨d, hd⟩ : ∃ d : Nat, Int.log 2 x - 23 = -(d : Int) :=
        ⟨(23 - Int.log 2 x).toNat, by omega⟩
      rw [hd] at hu hr ⊢
      have hN : ((n * 2 ^ d : Int) : ℚ) ≤ x / 2 ^ (-(d : Int)) := by
        rw [zpow_neg, zpow_natCast, div_inv_eq_mul]
        push_cast
        exact mul_le_mul_of_nonneg_right hx (by positivity)
      have hfl : n * 2 ^ d ≤ round_half_even (x / 2 ^ (-(d : Int))) :=
        le_trans (Int.le_floor.2 hN) hr
      have hq : ((n * 2 ^ d : Int) : ℚ) ≤ (round_half_even (x / 2 ^ (-(d : Int))) : ℚ) := by
        exact_mod_cast hfl
      have := mul_le_mul_of_nonneg_right hq hu.le
      rw [zpow_neg, zpow_natCast] at this ⊢
      push_cast at this
      have h2 : ((2 : ℚ) ^ d) * ((2 : ℚ) ^ d)⁻¹ = 1 := mul_inv_cancel₀ (by positivity)
      calc (n : ℚ) = (n : ℚ) * ((2 : ℚ) ^ d * ((2 : ℚ) ^ d)⁻¹) := by rw [h2, mul_one]
        _ = (n : ℚ) * 2 ^ d * ((2 : ℚ) ^ d)⁻¹ := by ring
        _ ≤ _ := this
    · have h24 : (24 : Int) ≤ Int.log 2 x := by omega
      have hpow : (2 : ℚ) ^ (Int.log 2 x) ≤ x := by
        have := Int.zpow_log_le_self (R := ℚ) (b := 2) (by decide) hxpos
        simpa using this
      have c23 : (((2 : Int) ^ 23 : Int) : ℚ) = (2 : ℚ) ^ (23 : Int) := by norm_num
      have c24 : (((2 : Int) ^ 24 : Int) : ℚ) = (2 : ℚ) ^ (24 : Int) := by norm_num
      have hsplit : (2 : ℚ) ^ (23 : Int) * 2 ^ (Int.log 2 x - 23) = 2 ^ (Int.log 2 x) := by
        rw [← zpow_add₀ (by norm_num : (2 : ℚ) ≠ 0)]
        congr 1
        omega
      have hy : (((2 : Int) ^ 23 : Int) : ℚ) ≤ x / 2 ^ (Int.log 2 x - 23) := by
        rw [le_div_iff₀ hu, c23, hsplit]
        exact hpow
      have hfl : (2 : Int) ^ 23 ≤ round_half_even (x / 2 ^ (Int.log 2 x - 23)) :=
        le_trans (Int.le_floor.2 hy) hr
      have hq : (((2 : Int) ^ 23 : Int) : ℚ) ≤
          (round_half_even (x / 2 ^ (Int.log 2 x - 23)) : ℚ) := by exact_mod_cast hfl
      have := mul_le_mul_of_nonneg_right hq hu.le
      rw [c23, hsplit] at this
      have hn2 : (n : ℚ) ≤ 2 ^ (Int.log 2 x) := by
        have h1 : (n : ℚ) ≤ (((2 : Int) ^ 24 : Int) : ℚ) := by exact_mod_cast hn
        have h2 : (2 : ℚ) ^ (24 : Int) ≤ 2 ^ (Int.log 2 x) :=
          zpow_le_zpow_right₀ (by norm_num) h24
        rw [c24] at h1
        exact le_trans h1 h2
      exact le_trans hn2 this

theorem to_float_le_two_pow (p : Nat) (x : ℚ) (h0 : 0 ≤ x) (hx : x ≤ 2 ^ p) :
    to_float x ≤ 2 ^ p := by
  by_cases hz : x = 0
  · simp [to_float, hz]
  · have hxpos : (0 : ℚ) < x := lt_of_le_of_ne h0 (Ne.symm hz)
    have habs : |x| = x := abs_of_pos hxpos
    have hL : Int.log 2 x ≤ p := by
      by_contra hc
      have h1 : ((p : Int) + 1) ≤ Int.log 2 x := by omega
      have h2 : ((2 : ℕ) : ℚ) ^ ((p : Int) + 1) ≤ x :=
        (Int.zpow_le_iff_le_log (by decide) hxpos).2 h1
      have h3 : (2 : ℚ) ^ (p : Int) < (2 : ℚ) ^ ((p : Int) + 1) :=
        zpow_lt_zpow_right₀ (by norm_num) (by omega)
      rw [zpow_natCast] at h3
      have h4 : (2 : ℚ) ^ ((p : Int) + 1) ≤ x := by simpa using h2
      linarith
    have he : max (Int.log 2 x) (-126) - 23 ≤ (p : Int) - 23 := by
      rcases max_cases (Int.log 2 x) (-126) with ⟨h, _⟩ | ⟨h, _⟩ <;> rw [h] <;> omega
    simp only [to_float, hz, if_false, habs]
    generalize max (Int.log 2 x) (-126) - 23 = u at he
    obtain ⟨d, hd⟩ : ∃ d : Nat, (p : Int) = u + d := ⟨((p : Int) - u).toNat, by omega⟩
    have hu : (0 : ℚ) < 2 ^ u := zpow_pos (by norm_num) u
    have hp : (2 : ℚ) ^ p = 2 ^ u * 2 ^ d := by
      rw [← zpow_natCast, hd, zpow_add₀ (by norm_num : (2 : ℚ) ≠ 0), zpow_natCast]
    have hy : x / 2 ^ u ≤ (((2 : Int) ^ d : Int) : ℚ) := by
      rw [div_le_iff₀ hu]
      simp only [Int.cast_pow, Int.cast_ofNat]
      rw [mul_comm, ← hp]
      exact hx
    have hr : round_half_even (x / 2 ^ u) ≤ (2 : Int) ^ d :=
      le_trans (round_half_even_le_ceil _) (Int.ceil_le.2 hy)
    have hq : (round_half_even (x / 2 ^ u) : ℚ) ≤ (((2 : Int) ^ d : Int) : ℚ) := by
      exact_mod_cast hr
    have := mul_le_mul_of_nonneg_right hq hu.le
    simp only [Int.cast_pow, Int.cast_ofNat] at this
    rw [hp, mul_comm ((2 : ℚ) ^ u)]
    exact this

theorem float_to_int_of_nonneg (y : ℚ) (h0 : 0 ≤ y) (h1 : y ≤ (INT_MAX : ℚ)) :
    float_to_int y = ⌊y⌋ := by
  have hf0 : (0 : Int) ≤ ⌊y⌋ := Int.floor_nonneg.2 h0
  have hf1 : ⌊y⌋ ≤ INT_MAX := by
    have : ((⌊y⌋ : Int) : ℚ) ≤ (INT_MAX : ℚ) := le_trans (Int.floor_le y) h1
    exact_mod_cast this
  have hmin : INT_MIN ≤ ⌊y⌋ := by
    simp only [INT_MIN]
    omega
  simp only [float_to_int, trunc_to_int, h0, if_true, hmin, hf1, and_self]

/-! ## Lemmas on `clean_map` -/

theorem to_ulong_of_nonneg (x : Int) (h0 : 0 ≤ x) (h1 : x ≤ INT_MAX) :
    to_ulong x = x.toNat := by
  have h2 : x % 2 ^ 64 = x := Int.emod_eq_of_lt h0 (by simp only [INT_MAX] at h1; omega)
  simp only [to_ulong, h2]

theorem fair_erase_eq (cap ff : Int) :
    ∀ m : Table, (∀ e ∈ m, e.2 ≠ 0) →
      fair_erase cap ff m = some (m.filter (fun e => !decide (ff < cap.tdiv e.2))) := by
  intro m
  induction m with
  | nil => intro _; rfl
  | cons e m ih =>
    intro h
    obtain ⟨k, v⟩ := e
    have hv : v ≠ 0 := h (k, v) (List.mem_cons_self _ _)
    have ih2 := ih (fun e he => h e (List.mem_cons_of_mem _ he))
    simp only [fair_erase, hv, if_false, ih2]
    by_cases hc : ff < cap.tdiv v <;> simp [List.filter_cons, hc]

theorem fair_erase_none (cap ff : Int) :
    ∀ m : Table, (∃ e ∈ m, e.2 = 0) → fair_erase cap ff m = none := by
  intro m
  induction m with
  | nil => intro h; obtain ⟨e, he, _⟩ := h; exact absurd he (List.not_mem_nil e)
  | cons e m ih =>
    intro h
    obtain ⟨k, v⟩ := e
    by_cases hv : v = 0
    · simp [fair_erase, hv]
    · obtain ⟨e, he, h0⟩ := h
      rcases List.mem_cons.1 he with h1 | h1
      · subst h1; exact absurd h0 hv
      · simp [fair_erase, hv, ih ⟨e, h1, h0⟩]

theorem harsh_erase_eq (th : Int) :
    ∀ m : Table, harsh_erase th m = m.filter (fun e => !decide (e.2 ≤ th)) := by
  intro m
  induction m with
  | nil => rfl
  | cons e m ih =>
    obtain ⟨k, v⟩ := e
    by_cases hc : v ≤ th <;> simp [harsh_erase, List.filter_cons, hc, ih]

theorem raise_limit_limit (g : Globals) (b a : Int) (hb : 0 ≤ b) :
    (raise_limit g b a).MAP_SIZE_LIMIT =
      if 10 * (b - a) ≤ b then g.MAP_SIZE_LIMIT + 1000 else g.MAP_SIZE_LIMIT := by
  have hd : b.tdiv 10 = b / 10 := Int.tdiv_eq_ediv hb (by decide)
  simp only [raise_limit, hd]
  by_cases h : 10 * (b - a) ≤ b
  · have h2 : ¬ (b - a > b / 10) := by omega
    simp only [h2, h, not_false_eq_true, if_true]
    split <;> rfl
  · have h2 : b - a > b / 10 := by omega
    simp [h2, h]

theorem raise_limit_empty (g : Globals) :
    raise_limit g 0 0 =
      if g.MAP_SIZE_LIMIT + 1000 ≥ 15000 then
        { g with MAP_SIZE_LIMIT := g.MAP_SIZE_LIMIT + 1000, FAIR_THRESHOLD_MODE := false }
      else { g with MAP_SIZE_LIMIT := g.MAP_SIZE_LIMIT + 1000 } := by
  have h : ¬ ((0 : Int) - 0 > Int.tdiv 0 10) := by decide
  simp only [raise_limit, h, not_false_eq_true, if_true]

theorem clean_map_empty (g : Globals) (mcc : Int)
    (hdef : g.FAIR_THRESHOLD_MODE = false ∨ to_ulong mcc ≠ 0) :
    clean_map g [] mcc = some (raise_limit g 0 0, []) := by
  by_cases hm : g.FAIR_THRESHOLD_MODE = true
  · rcases hdef with h | hz
    · rw [hm] at h; exact absurd h (by decide)
    · simp only [clean_map, erase_entries, hm, hz, if_true, if_false, fair_erase]
      rfl
  · have hm2 : g.FAIR_THRESHOLD_MODE = false := by simpa using hm
    simp only [clean_map, erase_entries, hm2, harsh_erase]
    rfl

theorem clean_map_defined_iff (g : Globals) (m : Table) (mcc : Int) :
    (∃ r, clean_map g m mcc = some r) ↔
      (g.FAIR_THRESHOLD_MODE = false ∨ (to_ulong mcc ≠ 0 ∧ ∀ e ∈ m, e.2 ≠ 0)) := by
  by_cases hm : g.FAIR_THRESHOLD_MODE = true
  · by_cases hz : to_ulong mcc = 0
    · simp [clean_map, erase_entries, hm, hz]
    · by_cases hc : ∀ e ∈ m, e.2 ≠ 0
      · simp only [clean_map, erase_entries, hm, hz, if_true, if_false, fair_erase_eq _ _ m hc]
        simp only [Bool.true_eq_false, ne_eq, not_false_eq_true, true_and, false_or]
        exact ⟨fun _ => ⟨hz, hc⟩, fun _ => ⟨_, rfl⟩⟩
      · have hc2 : ∃ e ∈ m, e.2 = 0 := by
          push_neg at hc
          exact hc
        simp only [clean_map, erase_entries, hm, hz, if_true, if_false,
          fair_erase_none _ _ m hc2]
        simp only [Bool.true_eq_false, ne_eq, not_false_eq_true, true_and, false_or]
        constructor
        · intro h; obtain ⟨r, hr⟩ := h; exact absurd hr (by simp)
        · intro h; exact absurd h.2 hc
  · have hm2 : g.FAIR_THRESHOLD_MODE = false := by simpa using hm
    simp [clean_map, erase_entries, hm2]

theorem clean_map_fair_table (g : Globals) (m : Table) (mcc : Int)
    (hmode : g.FAIR_THRESHOLD_MODE = true) (hz : to_ulong mcc ≠ 0) (hc : ∀ e ∈ m, e.2 ≠ 0) :
    clean_map g m mcc =
      some (raise_limit g m.length
        (m.filter (fun e => !decide
          (fairness_factor g.LINE_COUNT mcc g.FAIRNESS_CONST
            < g.MAP_SIZE_LIMIT.tdiv e.2))).length,
        m.filter (fun e => !decide
          (fairness_factor g.LINE_COUNT mcc g.FAIRNESS_CONST
            < g.MAP_SIZE_LIMIT.tdiv e.2))) := by
  simp only [clean_map, erase_entries, hmode, hz, if_true, if_false, fair_erase_eq _ _ m hc]

theorem floor_lines_quot (L : Nat) (mcc : Int) (hmcc : 1 ≤ mcc) (hint : mcc ≤ INT_MAX) :
    ⌊(L : ℚ) / (mcc : ℚ)⌋ = ((L / to_ulong mcc : Nat) : Int) := by
  have hn : to_ulong mcc = mcc.toNat := to_ulong_of_nonneg mcc (by omega) hint
  have hcast : ((mcc.toNat : Int) : ℚ) = (mcc : ℚ) := by
    rw [Int.toNat_of_nonneg (by omega)]
  have hcast2 : ((mcc.toNat : Nat) : ℚ) = (mcc : ℚ) := by
    rw [← hcast]; norm_cast
  rw [hn, ← hcast2]
  exact Rat.floor_natCast_div_natCast L mcc.toNat

theorem floor_limit_quot (cap v : Int) (hcap : 0 ≤ cap) (hv : 1 ≤ v) :
    ⌊(cap : ℚ) / (v : ℚ)⌋ = cap.tdiv v := by
  have hvcast : ((v.toNat : Nat) : ℚ) = (v : ℚ) := by
    have : ((v.toNat : Int) : ℚ) = (v : ℚ) := by rw [Int.toNat_of_nonneg (by omega)]
    rw [← this]; norm_cast
  rw [Int.tdiv_eq_ediv hcap (by omega), ← hvcast,
    Rat.floor_intCast_div_natCast cap v.toNat, Int.toNat_of_nonneg (by omega)]

theorem to_float_of_exact (x : ℚ) (h : exact_in_binary32 x) : to_float x = x := by
  obtain ⟨a, k, ha, hk, hx⟩ := h
  rw [hx]
  exact to_float_exact a k ha hk

theorem fairness_factor_exact (L : Nat) (mcc : Int) (f : ℚ)
    (hmcc : 1 ≤ mcc) (hint : mcc ≤ INT_MAX) (hf : 0 ≤ f)
    (hq : exact_in_binary32 ((⌊(L : ℚ) / (mcc : ℚ)⌋ : Int) : ℚ))
    (hfe : exact_in_binary32 f)
    (hp : exact_in_binary32 (((⌊(L : ℚ) / (mcc : ℚ)⌋ : Int) : ℚ) * f))
    (hr : ((⌊(L : ℚ) / (mcc : ℚ)⌋ : Int) : ℚ) * f ≤ (INT_MAX : ℚ)) :
    fairness_factor L mcc f = ⌊((⌊(L : ℚ) / (mcc : ℚ)⌋ : Int) : ℚ) * f⌋ := by
  have hfl := floor_lines_quot L mcc hmcc hint
  rw [hfl] at hq hp hr ⊢
  simp only [Int.cast_natCast] at hq hp hr ⊢
  have h0 : (0 : ℚ) ≤ ((L / to_ulong mcc : Nat) : ℚ) * f :=
    mul_nonneg (Nat.cast_nonneg _) hf
  simp only [fairness_factor, to_float_of_exact _ hq, to_float_of_exact _ hfe,
    to_float_of_exact _ hp]
  exact float_to_int_of_nonneg _ h0 hr

theorem fair_factor_lt_iff (L : Nat) (mcc : Int) (f : ℚ) (cap v : Int)
    (hmcc : 1 ≤ mcc) (hint : mcc ≤ INT_MAX) (hf : 0 ≤ f) (hcap : 0 ≤ cap) (hv : 1 ≤ v)
    (hq : exact_in_binary32 ((⌊(L : ℚ) / (mcc : ℚ)⌋ : Int) : ℚ))
    (hfe : exact_in_binary32 f)
    (hp : exact_in_binary32 (((⌊(L : ℚ) / (mcc : ℚ)⌋ : Int) : ℚ) * f))
    (hr : ((⌊(L : ℚ) / (mcc : ℚ)⌋ : Int) : ℚ) * f ≤ (INT_MAX : ℚ)) :
    fairness_factor L mcc f < cap.tdiv v ↔ spec_fair_evicts L mcc f cap v = true := by
  rw [fairness_factor_exact L mcc f hmcc hint hf hq hfe hp hr,
    ← floor_limit_quot cap v hcap hv]
  simp only [spec_fair_evicts, decide_eq_true_eq, Int.floor_lt]

theorem mem_filter_not (m : Table) (p : kmer × Int → Bool) (e : kmer × Int) (he : e ∈ m) :
    e ∉ m.filter (fun x => !p x) ↔ p e = true := by
  simp [List.mem_filter, he]

theorem fairness_factor_eval (L : Nat) (mcc : Int) (f : ℚ) (n : Nat) (q tf p : ℚ)
    (hn : to_ulong mcc = n) (hq : to_float ((L / n : Nat) : ℚ) = q) (hf : to_float f = tf)
    (hp : to_float (q * tf) = p) : fairness_factor L mcc f = float_to_int p := by
  simp only [fairness_factor, hn, hq, hf, hp]

theorem float_to_int_natCast (n : Nat) (h : (n : Int) ≤ INT_MAX) :
    float_to_int (n : ℚ) = n := by
  rw [float_to_int_of_nonneg _ (Nat.cast_nonneg n) (by exact_mod_cast h)]
  exact Int.floor_natCast n

theorem to_float_natCast (n : Nat) (h : n < 2 ^ 24) : to_float (n : ℚ) = n := by
  have := to_float_int (n : Int) (by rw [abs_of_nonneg (by omega)]; exact_mod_cast h)
  simpa using this

theorem fairness_factor_five_fourths (L : Nat) (mcc : Int) (n : Nat)
    (hn : to_ulong mcc = n) (hq : L / n < 2 ^ 21) :
    fairness_factor L mcc (5 / 4) = ((5 * (L / n) / 4 : Nat) : Int) := by
  have h1 : to_float ((L / n : Nat) : ℚ) = ((L / n : Nat) : ℚ) :=
    to_float_natCast _ (by omega)
  have h2 : to_float (5 / 4 : ℚ) = 5 / 4 := by
    have := to_float_exact 5 (-2) (by decide) (by decide)
    norm_num at this ⊢
    exact this
  have h3 : to_float (((L / n : Nat) : ℚ) * (5 / 4))
      = ((5 * (L / n) : Nat) : ℚ) / ((4 : Nat) : ℚ) := by
    have hb : |((5 * (L / n) : Nat) : Int)| < 2 ^ 24 := by
      rw [abs_of_nonneg (by omega)]
      have : 5 * (L / n) < 2 ^ 24 := by omega
      exact_mod_cast this
    have := to_float_exact ((5 * (L / n) : Nat) : Int) (-2) hb (by decide)
    have e : ((((5 * (L / n) : Nat) : Int) : ℚ)) * 2 ^ (-2 : Int)
        = ((L / n : Nat) : ℚ) * (5 / 4) := by
      rw [Int.cast_natCast, Nat.cast_mul]
      norm_num
      ring
    rw [e] at this
    rw [this]
    push_cast
    ring
  rw [fairness_factor_eval L mcc (5 / 4) n _ _ _ hn h1 h2 h3]
  have hnn : (0 : ℚ) ≤ ((5 * (L / n) : Nat) : ℚ) / ((4 : Nat) : ℚ) := by positivity
  have hle : ((5 * (L / n) : Nat) : ℚ) / ((4 : Nat) : ℚ) ≤ (INT_MAX : ℚ) := by
    have h5 : ((5 * (L / n) : Nat) : ℚ) ≤ 2 ^ 24 := by
      have : 5 * (L / n) ≤ 2 ^ 24 := by omega
      exact_mod_cast this
    have h4 : ((5 * (L / n) : Nat) : ℚ) / ((4 : Nat) : ℚ) ≤ ((5 * (L / n) : Nat) : ℚ) :=
      div_le_self (Nat.cast_nonneg _) (by norm_num)
    have h6 : ((2 : ℚ) ^ 24) ≤ (INT_MAX : ℚ) := by norm_num [INT_MAX]
    linarith
  rw [float_to_int_of_nonneg _ hnn hle]
  exact Rat.floor_natCast_div_natCast (5 * (L / n)) 4

/-! ## C4: the eviction rule of the fair mode -/

theorem float_13_10 : to_float (13 / 10) = 5452595 / 4194304 := by
  have h := to_float_eval (13 / 10) 0 10905190 (by norm_num [abs_of_pos])
    (by norm_num [abs_of_pos]) (by decide) (by norm_num [round_half_even])
  rw [h]
  norm_num

theorem fairness_factor_760 : fairness_factor 760 76 (5452595 / 4194304) = 13 := by
  have h1 : to_float (((760 / 76 : Nat) : ℕ) : ℚ) = 10 := by
    have := to_float_natCast 10 (by decide)
    simpa using this
  have h2 : to_float (5452595 / 4194304 : ℚ) = 5452595 / 4194304 := by
    have := to_float_exact 10905190 (-23) (by decide) (by decide)
    norm_num at this ⊢
    exact this
  have h3 : to_float ((10 : ℚ) * (5452595 / 4194304)) = 13 := by
    have h := to_float_eval ((10 : ℚ) * (5452595 / 4194304)) 3 13631488
      (by norm_num [abs_of_pos]) (by norm_num [abs_of_pos]) (by decide)
      (by norm_num [round_half_even])
    rw [h]
    norm_num
  rw [fairness_factor_eval 760 76 _ 76 10 _ 13 (by decide) h1 h2 h3]
  have := float_to_int_natCast 13 (by decide)
  simpa using this

/-- C4 as stated fails: with FAIRNESS_CONST the float 1.3 (the binary32 value nearest to
13/10), LINE_COUNT 760, running maximum 76 and MAP_SIZE_LIMIT 1000, the exact product
10 * 1.2999999523 is below floor(1000 / 76) = 13, so the rule of the claim evicts the entry
of count 76; the float product rounds to 13.0, the fairness factor is 13, and the pass keeps
the entry. -/
theorem fair_rule_float_counterexample :
    ∃ r, clean_map
        { default_globals with FAIRNESS_CONST := 5452595 / 4194304, LINE_COUNT := 760 }
        [(⟨[65, 67], 331⟩, 76)] 76 = some r ∧
      ((⟨[65, 67], 331⟩, 76) : kmer × Int) ∈ r.2 ∧
      spec_fair_evicts 760 76 (5452595 / 4194304) 1000 76 = true ∧
      (0 : ℚ) ≤ 5452595 / 4194304 ∧
      to_float (13 / 10) = 5452595 / 4194304 ∧
      fairness_factor 760 76 (5452595 / 4194304) = 13 := by
  have hz : to_ulong 76 ≠ 0 := by decide
  have ht : Int.tdiv 1000 76 = 13 := by decide
  refine ⟨_, clean_map_fair_table _ _ 76 rfl hz (by decide), ?_, ?_, by norm_num,
    float_13_10, fairness_factor_760⟩
  · simp [fairness_factor_760, default_globals, ht]
  · norm_num [spec_fair_evicts]

/-- C4, as the code has it: for every table whose counts are all >= 1, every running
maximum >= 1 (an int), every LINE_COUNT, every MAP_SIZE_LIMIT >= 0 and every
FAIRNESS_CONST >= 0, a clean_map pass in fair mode returns and removes an entry if and only
if fairness_factor < floor(capacity_limit / count), where fairness_factor is the int of
line 158: floor(lines_seen / running_max_count) converted to float, multiplied by
FAIRNESS_CONST in binary32 and converted to int. When floor(lines_seen /
running_max_count), FAIRNESS_CONST and their exact product are binary32 values and the
product is at most INT_MAX, nothing is rounded and the pass removes an entry if and only if
floor(lines_seen / running_max_count) * fairness_const < floor(capacity_limit / count)
holds with the product untruncated. -/
theorem fair_mode_eviction_rule (g : Globals) (m : Table) (mcc : Int)
    (hmode : g.FAIR_THRESHOLD_MODE = true) (hcounts : ∀ e ∈ m, 1 ≤ e.2)
    (hmcc : 1 ≤ mcc) (hint : mcc ≤ INT_MAX) (hcap : 0 ≤ g.MAP_SIZE_LIMIT)
    (hf : 0 ≤ g.FAIRNESS_CONST) :
    ∃ r, clean_map g m mcc = some r ∧
      (∀ e ∈ m, (e ∉ r.2 ↔
        fairness_factor g.LINE_COUNT mcc g.FAIRNESS_CONST
          < ⌊(g.MAP_SIZE_LIMIT : ℚ) / (e.2 : ℚ)⌋)) ∧
      (exact_in_binary32 ((⌊(g.LINE_COUNT : ℚ) / (mcc : ℚ)⌋ : Int) : ℚ) →
        exact_in_binary32 g.FAIRNESS_CONST →
        exact_in_binary32 (((⌊(g.LINE_COUNT : ℚ) / (mcc : ℚ)⌋ : Int) : ℚ) * g.FAIRNESS_CONST) →
        ((⌊(g.LINE_COUNT : ℚ) / (mcc : ℚ)⌋ : Int) : ℚ) * g.FAIRNESS_CONST ≤ (INT_MAX : ℚ) →
        r.2 = m.filter (fun e =>
          !spec_fair_evicts g.LINE_COUNT mcc g.FAIRNESS_CONST g.MAP_SIZE_LIMIT e.2) ∧
        ∀ e ∈ m, (e ∉ r.2 ↔
          spec_fair_evicts g.LINE_COUNT mcc g.FAIRNESS_CONST g.MAP_SIZE_LIMIT e.2 = true)) := by
  have hn : to_ulong mcc = mcc.toNat := to_ulong_of_nonneg mcc (by omega) hint
  have hz : to_ulong mcc ≠ 0 := by rw [hn]; omega
  have hc0 : ∀ e ∈ m, e.2 ≠ 0 := fun e he => by have := hcounts e he; omega
  refine ⟨_, clean_map_fair_table g m mcc hmode hz hc0, ?_, ?_⟩
  · intro e he
    rw [floor_limit_quot g.MAP_SIZE_LIMIT e.2 hcap (hcounts e he)]
    simp only [List.mem_filter, he, true_and, Bool.not_eq_true', decide_eq_false_iff_not,
      not_not]
  · intro hq hfe hp hr
    have hfilter : m.filter (fun e => !decide
          (fairness_factor g.LINE_COUNT mcc g.FAIRNESS_CONST < g.MAP_SIZE_LIMIT.tdiv e.2)) =
        m.filter (fun e =>
          !spec_fair_evicts g.LINE_COUNT mcc g.FAIRNESS_CONST g.MAP_SIZE_LIMIT e.2) := by
      apply List.filter_congr
      intro e he
      have h := fair_factor_lt_iff g.LINE_COUNT mcc g.FAIRNESS_CONST g.MAP_SIZE_LIMIT e.2
        hmcc hint hf hcap (hcounts e he) hq hfe hp hr
      by_cases hs :
          spec_fair_evicts g.LINE_COUNT mcc g.FAIRNESS_CONST g.MAP_SIZE_LIMIT e.2 = true
      · rw [hs, decide_eq_true (h.2 hs)]
      · have hs2 : spec_fair_evicts g.LINE_COUNT mcc g.FAIRNESS_CONST g.MAP_SIZE_LIMIT e.2
            = false := by simpa using hs
        rw [hs2, decide_eq_false (fun x => hs (h.1 x))]
    refine ⟨hfilter, ?_⟩
    intro e he
    simp only [hfilter]
    exact mem_filter_not m _ e he

theorem fair_mode_eviction_rule_witness :
    ∃ r, clean_map { default_globals with LINE_COUNT := 2000 }
        [(⟨[65, 67], 331⟩, 1), (⟨[67, 71], 347⟩, 900)] 900 = some r ∧
      r.2 = [(⟨[67, 71], 347⟩, 900)] ∧
      spec_fair_evicts 2000 900 (5 / 4) 1000 1 = true ∧
      spec_fair_evicts 2000 900 (5 / 4) 1000 900 = false := by
  have s1 : spec_fair_evicts 2000 900 (5 / 4) 1000 1 = true := by
    norm_num [spec_fair_evicts]
  have s2 : spec_fair_evicts 2000 900 (5 / 4) 1000 900 = false := by
    norm_num [spec_fair_evicts]
  have hfl : ⌊((2000 : ℕ) : ℚ) / ((900 : ℤ) : ℚ)⌋ = 2 := by norm_num
  obtain ⟨r, h1, _, h3⟩ := fair_mode_eviction_rule { default_globals with LINE_COUNT := 2000 }
    [(⟨[65, 67], 331⟩, 1), (⟨[67, 71], 347⟩, 900)] 900 rfl (by decide) (by decide)
    (by decide) (by decide) (div_nonneg (by simp) (by simp))
  have h4 := (h3
    ⟨2, 0, by decide, by decide, by rw [hfl]; norm_num⟩
    ⟨5, -2, by decide, by decide, by norm_num [default_globals]⟩
    ⟨5, -1, by decide, by decide, by rw [hfl]; norm_num [default_globals]⟩
    (by rw [hfl]; norm_num [default_globals, INT_MAX])).1
  have d1 : default_globals.FAIRNESS_CONST = 5 / 4 := rfl
  have d2 : default_globals.MAP_SIZE_LIMIT = 1000 := rfl
  refine ⟨r, h1, ?_, s1, s2⟩
  rw [h4]
  simp [List.filter_cons, d1, d2, s1, s2]

/-! ## C5: the eviction rule of the harsh mode -/

theorem harsh_threshold_iff (mcc v : Int) (h : 0 ≤ mcc) :
    v ≤ mcc.tdiv 20 + 1 ↔ spec_harsh_evicts mcc v = true := by
  have htdiv : mcc.tdiv 20 = mcc / 20 := Int.tdiv_eq_ediv h (by decide)
  have hfloor : ⌊(mcc : ℚ) / 20⌋ = mcc / 20 := by
    have := Rat.floor_intCast_div_natCast mcc 20
    simpa using this
  simp only [spec_harsh_evicts, decide_eq_true_eq, hfloor, htdiv]
  constructor
  · intro hle; exact_mod_cast hle
  · intro hle; exact_mod_cast hle

/-- C5: for every table and every running maximum >= 0, a clean_map pass in harsh mode
returns, the table it leaves is the table without the entries whose count is
<= floor(running_max_count / 20) + 1, an entry of the table is removed if and only if its
count is at most that threshold, and every entry whose count is greater is kept. -/
theorem harsh_mode_eviction_rule (g : Globals) (m : Table) (mcc : Int)
    (hmode : g.FAIR_THRESHOLD_MODE = false) (hmcc : 0 ≤ mcc) :
    ∃ r, clean_map g m mcc = some r ∧
      r.2 = m.filter (fun e => !spec_harsh_evicts mcc e.2) ∧
      (∀ e ∈ m, (e ∉ r.2 ↔ spec_harsh_evicts mcc e.2 = true)) ∧
      (∀ e ∈ m, (e ∉ r.2 ↔ e.2 ≤ mcc / 20 + 1)) ∧
      (∀ e ∈ m, mcc / 20 + 1 < e.2 → e ∈ r.2) := by
  have htdiv : mcc.tdiv 20 = mcc / 20 := Int.tdiv_eq_ediv hmcc (by decide)
  have hfilter : m.filter (fun e => !decide (e.2 ≤ mcc.tdiv 20 + 1)) =
      m.filter (fun e => !spec_harsh_evicts mcc e.2) := by
    apply List.filter_congr
    intro e _
    have h := harsh_threshold_iff mcc e.2 hmcc
    by_cases hs : spec_harsh_evicts mcc e.2 = true
    · rw [hs, decide_eq_true (h.2 hs)]
    · have hs2 : spec_harsh_evicts mcc e.2 = false := by simpa using hs
      rw [hs2, decide_eq_false (fun x => hs (h.1 x))]
  have hmem : ∀ e ∈ m, (e ∉ m.filter (fun e => !spec_harsh_evicts mcc e.2) ↔
      spec_harsh_evicts mcc e.2 = true) := fun e he => mem_filter_not m _ e he
  refine ⟨(raise_limit g m.length (m.filter (fun e => !spec_harsh_evicts mcc e.2)).length,
      m.filter (fun e => !spec_harsh_evicts mcc e.2)), ?_, rfl, hmem, ?_, ?_⟩
  · simp only [clean_map, erase_entries, hmode, harsh_erase_eq]
    simp only [Bool.false_eq_true, if_false]
    rw [hfilter]
  · intro e he
    rw [hmem e he, ← harsh_threshold_iff mcc e.2 hmcc, htdiv]
  · intro e he hlt
    by_contra hn
    have := (hmem e he).1 hn
    rw [← harsh_threshold_iff mcc e.2 hmcc, htdiv] at this
    omega

theorem harsh_mode_eviction_rule_witness :
    ∃ r, clean_map { default_globals with MAP_SIZE_LIMIT := 15000, FAIR_THRESHOLD_MODE := false }
        [(⟨[65, 67], 331⟩, 3), (⟨[67, 71], 347⟩, 4)] 45 = some r ∧
      r.2 = ([(⟨[65, 67], 331⟩, 3), (⟨[67, 71], 347⟩, 4)] : Table).filter
        (fun e => !spec_harsh_evicts 45 e.2) ∧
      (∀ e ∈ ([(⟨[65, 67], 331⟩, 3), (⟨[67, 71], 347⟩, 4)] : Table),
        (e ∉ r.2 ↔ spec_harsh_evicts 45 e.2 = true)) ∧
      (∀ e ∈ ([(⟨[65, 67], 331⟩, 3), (⟨[67, 71], 347⟩, 4)] : Table),
        (e ∉ r.2 ↔ e.2 ≤ 45 / 20 + 1)) ∧
      (∀ e ∈ ([(⟨[65, 67], 331⟩, 3), (⟨[67, 71], 347⟩, 4)] : Table),
        (45 : Int) / 20 + 1 < e.2 → e ∈ r.2) :=
  harsh_mode_eviction_rule
    { default_globals with MAP_SIZE_LIMIT := 15000, FAIR_THRESHOLD_MODE := false }
    [(⟨[65, 67], 331⟩, 3), (⟨[67, 71], 347⟩, 4)] 45 rfl (by decide)

/-! ## C6: the adaptation after an eviction pass -/

theorem clean_map_eq_filter (g : Globals) (m : Table) (mcc : Int)
    (hdef : g.FAIR_THRESHOLD_MODE = false ∨ (to_ulong mcc ≠ 0 ∧ ∀ e ∈ m, e.2 ≠ 0)) :
    ∃ p : kmer × Int → Bool,
      clean_map g m mcc = some (raise_limit g m.length (m.filter p).length, m.filter p) := by
  by_cases hm : g.FAIR_THRESHOLD_MODE = true
  · rcases hdef with h | ⟨hz, hc⟩
    · rw [hm] at h; exact absurd h (by decide)
    · exact ⟨fun e => !decide
        (fairness_factor g.LINE_COUNT mcc g.FAIRNESS_CONST < g.MAP_SIZE_LIMIT.tdiv e.2),
        clean_map_fair_table g m mcc hm hz hc⟩
  · have hm2 : g.FAIR_THRESHOLD_MODE = false := by simpa using hm
    refine ⟨fun e => !decide (e.2 ≤ mcc.tdiv 20 + 1), ?_⟩
    simp only [clean_map, erase_entries, hm2, harsh_erase_eq]
    simp only [Bool.false_eq_true, if_false]

/-- C6: every clean_map pass that divides by no zero (any pass in harsh mode, and in fair
mode one whose running maximum and counts are not zero) returns, removes entries only, and
with b the table size before and r the number of entries removed leaves
MAP_SIZE_LIMIT + 1000 when 10 * r <= b and MAP_SIZE_LIMIT unchanged otherwise. -/
theorem post_eviction_adaptation (g : Globals) (m : Table) (mcc : Int)
    (hdef : g.FAIR_THRESHOLD_MODE = false ∨ (to_ulong mcc ≠ 0 ∧ ∀ e ∈ m, e.2 ≠ 0)) :
    ∃ r, clean_map g m mcc = some r ∧ r.2.length ≤ m.length ∧
      (10 * (m.length - r.2.length) ≤ m.length →
        r.1.MAP_SIZE_LIMIT = g.MAP_SIZE_LIMIT + 1000) ∧
      (¬ 10 * (m.length - r.2.length) ≤ m.length →
        r.1.MAP_SIZE_LIMIT = g.MAP_SIZE_LIMIT) := by
  obtain ⟨p, hp⟩ := clean_map_eq_filter g m mcc hdef
  have hle : (m.filter p).length ≤ m.length := List.length_filter_le p m
  have hl := raise_limit_limit g m.length (m.filter p).length (by omega)
  refine ⟨_, hp, hle, ?_, ?_⟩
  · intro h
    dsimp only at h
    have h2 : 10 * ((m.length : Int) - ((m.filter p).length : Int)) ≤ (m.length : Int) := by
      omega
    simp only [hl, h2, if_true]
  · intro h
    dsimp only at h
    have h2 : ¬ 10 * ((m.length : Int) - ((m.filter p).length : Int)) ≤ (m.length : Int) := by
      omega
    simp only [hl, h2, if_false]

theorem post_eviction_adaptation_witness :
    ∃ r, clean_map { default_globals with MAP_SIZE_LIMIT := 15000, FAIR_THRESHOLD_MODE := false }
        [(⟨[65, 67], 331⟩, 3), (⟨[67, 71], 347⟩, 4)] 45 = some r ∧
      r.2.length ≤ ([(⟨[65, 67], 331⟩, 3), (⟨[67, 71], 347⟩, 4)] : Table).length ∧
      (10 * (([(⟨[65, 67], 331⟩, 3), (⟨[67, 71], 347⟩, 4)] : Table).length - r.2.length)
          ≤ ([(⟨[65, 67], 331⟩, 3), (⟨[67, 71], 347⟩, 4)] : Table).length →
        r.1.MAP_SIZE_LIMIT = 15000 + 1000) ∧
      (¬ 10 * (([(⟨[65, 67], 331⟩, 3), (⟨[67, 71], 347⟩, 4)] : Table).length - r.2.length)
          ≤ ([(⟨[65, 67], 331⟩, 3), (⟨[67, 71], 347⟩, 4)] : Table).length →
        r.1.MAP_SIZE_LIMIT = 15000) :=
  post_eviction_adaptation
    { default_globals with MAP_SIZE_LIMIT := 15000, FAIR_THRESHOLD_MODE := false }
    [(⟨[65, 67], 331⟩, 3), (⟨[67, 71], 347⟩, 4)] 45 (Or.inl rfl)

/-! ## C7: ranking and top-N extraction -/

theorem by_hit_count_false_iff (a b : List Int × Int) :
    by_hit_count b a = false ↔ b.2 ≤ a.2 := by
  simp [by_hit_count]

theorem insertion_sort_contract : sort_contract insertion_sort := by
  intro v
  haveI : IsTotal (List Int × Int) (fun a b => by_hit_count b a = false) :=
    ⟨fun a b => by
      simp only [by_hit_count_false_iff]
      exact le_total b.2 a.2⟩
  haveI : IsTrans (List Int × Int) (fun a b => by_hit_count b a = false) :=
    ⟨fun a b c hab hbc => by
      simp only [by_hit_count_false_iff] at hab hbc ⊢
      exact le_trans hbc hab⟩
  exact ⟨List.perm_insertionSort _ v, List.sorted_insertionSort _ v⟩

theorem filterMap_range_getElem (l : List (List Int × Int)) :
    ∀ n : Nat, (List.range n).filterMap (fun i => l[i]?) = l.take n := by
  intro n
  induction n with
  | zero => simp
  | succ n ih =>
    rw [List.range_succ, List.filterMap_append, ih, List.take_succ]
    congr 1

theorem extract_eq_take (sort : List (List Int × Int) → List (List Int × Int))
    (m : Table) (N : Int) :
    extract_top_N_kmers sort m N =
      (write_map_to_file sort m).take (min N.toNat (write_map_to_file sort m).length) := by
  simp only [extract_top_N_kmers, write_map_to_file, filterMap_range_getElem]
  congr 1
  omega

/-- C7: for every table, every N and every sort that meets the guarantee of std::sort, the
ranking that write_map_to_file and extract_top_N_kmers build is a rearrangement of the
(text, count) pairs of the table (each entry of the table gives the pair of its key text
and its count) with the counts non-increasing, the records extract_top_N_kmers prints are
its first min(N, size) elements, and every pair of the table outside the printed records
has a count <= the count of every printed record. -/
theorem top_N_extraction (sort : List (List Int × Int) → List (List Int × Int))
    (hs : sort_contract sort) (m : Table) (N : Int) :
    (write_map_to_file sort m).Perm (m.map (fun e => (e.1.pattern, e.2))) ∧
    (write_map_to_file sort m).Pairwise (fun a b => b.2 ≤ a.2) ∧
    (write_map_to_file sort m).length = m.length ∧
    extract_top_N_kmers sort m N =
      (write_map_to_file sort m).take (min N.toNat m.length) ∧
    (∀ a ∈ extract_top_N_kmers sort m N,
      ∀ b ∈ (write_map_to_file sort m).drop (min N.toNat m.length), b.2 ≤ a.2) ∧
    (∀ e ∈ m.map (fun e => (e.1.pattern, e.2)), e ∉ extract_top_N_kmers sort m N →
      ∀ a ∈ extract_top_N_kmers sort m N, e.2 ≤ a.2) := by
  obtain ⟨hperm0, hsorted⟩ := hs (copy_to_vector m)
  have hperm : (write_map_to_file sort m).Perm (m.map (fun e => (e.1.pattern, e.2))) :=
    hperm0
  have hpw : (write_map_to_file sort m).Pairwise (fun a b => b.2 ≤ a.2) := by
    simp only [write_map_to_file]
    exact hsorted.imp (fun h => (by_hit_count_false_iff _ _).1 h)
  have hlen : (write_map_to_file sort m).length = m.length := by
    rw [hperm.length_eq]
    simp
  have htake := extract_eq_take sort m N
  rw [hlen] at htake
  have hsplit := hpw
  rw [← List.take_append_drop (min N.toNat m.length) (write_map_to_file sort m),
    List.pairwise_append] at hsplit
  have hcross : ∀ a ∈ extract_top_N_kmers sort m N,
      ∀ b ∈ (write_map_to_file sort m).drop (min N.toNat m.length), b.2 ≤ a.2 := by
    intro a ha b hb
    rw [htake] at ha
    exact hsplit.2.2 a ha b hb
  refine ⟨hperm, hpw, hlen, htake, hcross, ?_⟩
  intro e he hnot a ha
  have hmem : e ∈ write_map_to_file sort m := hperm.mem_iff.2 he
  rw [← List.take_append_drop (min N.toNat m.length) (write_map_to_file sort m),
    List.mem_append] at hmem
  rcases hmem with h | h
  · rw [← htake] at h; exact absurd h hnot
  · exact hcross a ha e h

theorem top_N_extraction_witness :
    ((write_map_to_file insertion_sort
        [(⟨[65, 67], 331⟩, 3), (⟨[67, 71], 347⟩, 7), (⟨[71, 84], 394⟩, 5)]).Perm
      [([65, 67], 3), ([67, 71], 7), ([71, 84], 5)] ∧
    (write_map_to_file insertion_sort
        [(⟨[65, 67], 331⟩, 3), (⟨[67, 71], 347⟩, 7), (⟨[71, 84], 394⟩, 5)]).Pairwise
      (fun a b => b.2 ≤ a.2) ∧
    (write_map_to_file insertion_sort
        [(⟨[65, 67], 331⟩, 3), (⟨[67, 71], 347⟩, 7), (⟨[71, 84], 394⟩, 5)]).length = 3 ∧
    extract_top_N_kmers insertion_sort
        [(⟨[65, 67], 331⟩, 3), (⟨[67, 71], 347⟩, 7), (⟨[71, 84], 394⟩, 5)] 2 =
      (write_map_to_file insertion_sort
        [(⟨[65, 67], 331⟩, 3), (⟨[67, 71], 347⟩, 7), (⟨[71, 84], 394⟩, 5)]).take 2 ∧
    (∀ a ∈ extract_top_N_kmers insertion_sort
        [(⟨[65, 67], 331⟩, 3), (⟨[67, 71], 347⟩, 7), (⟨[71, 84], 394⟩, 5)] 2,
      ∀ b ∈ (write_map_to_file insertion_sort
        [(⟨[65, 67], 331⟩, 3), (⟨[67, 71], 347⟩, 7), (⟨[71, 84], 394⟩, 5)]).drop 2,
        b.2 ≤ a.2) ∧
    (∀ e ∈ ([([65, 67], 3), ([67, 71], 7), ([71, 84], 5)] : List (List Int × Int)),
      e ∉ extract_top_N_kmers insertion_sort
        [(⟨[65, 67], 331⟩, 3), (⟨[67, 71], 347⟩, 7), (⟨[71, 84], 394⟩, 5)] 2 →
      ∀ a ∈ extract_top_N_kmers insertion_sort
        [(⟨[65, 67], 331⟩, 3), (⟨[67, 71], 347⟩, 7), (⟨[71, 84], 394⟩, 5)] 2, e.2 ≤ a.2)) ∧
    write_map_to_file insertion_sort
        [(⟨[65, 67], 331⟩, 3), (⟨[67, 71], 347⟩, 7), (⟨[71, 84], 394⟩, 5)] =
      [([67, 71], 7), ([71, 84], 5), ([65, 67], 3)] ∧
    extract_top_N_kmers insertion_sort
        [(⟨[65, 67], 331⟩, 3), (⟨[67, 71], 347⟩, 7), (⟨[71, 84], 394⟩, 5)] 2 =
      [([67, 71], 7), ([71, 84], 5)] ∧
    sort_contract insertion_sort :=
  ⟨top_N_extraction insertion_sort insertion_sort_contract
    [(⟨[65, 67], 331⟩, 3), (⟨[67, 71], 347⟩, 7), (⟨[71, 84], 394⟩, 5)] 2, by decide, by decide, insertion_sort_contract⟩

/-! ## C8: Scenario A -/

theorem scenario_A_main_loop :
    main_loop scenario_A_file (initial_state 30 1 (5 / 4)) = some scenario_A_loaded := by
  rfl

theorem scenario_A_final_pass :
    run_clean_map scenario_A_loaded = some { scenario_A_loaded with kmer_map := [] } := by
  have h1 : Int.tdiv 1000 2 = 500 := by decide
  have h2 : Int.tdiv 1 10 = 0 := by decide
  have h3 : to_ulong 2 = 2 := by decide
  have hff : fairness_factor 9 2 (5 / 4) = 5 :=
    fairness_factor_five_fourths 9 2 2 h3 (by decide)
  simp [run_clean_map, clean_map, erase_entries, raise_limit, scenario_A_loaded,
    default_globals, h3, fair_erase, hff, h1, h2]

theorem scenario_A_final_pass_any (L : Nat) (hL : L < 800) :
    run_clean_map { scenario_A_loaded with g := { scenario_A_loaded.g with LINE_COUNT := L } }
      = some { scenario_A_loaded with
                g := { scenario_A_loaded.g with LINE_COUNT := L }, kmer_map := [] } := by
  have h1 : Int.tdiv 1000 2 = 500 := by decide
  have h2 : Int.tdiv 1 10 = 0 := by decide
  have h3 : to_ulong 2 = 2 := by decide
  have hff : fairness_factor L 2 (5 / 4) < 500 := by
    rw [fairness_factor_five_fourths L 2 2 h3 (by omega)]
    have : 5 * (L / 2) / 4 < 500 := by omega
    exact_mod_cast this
  simp only [run_clean_map, clean_map, erase_entries, raise_limit, scenario_A_loaded,
    default_globals, fair_erase, h1, h2, h3]
  simp [hff, h2]

/-- C8, as the code runs it: with the default configuration, K = 30 and N = 1, the loop of
main on the two sequence lines of Scenario A leaves a table of exactly one entry, of count
2, with running maximum 2; the final clean_map pass removes that entry, so the run ends
with an empty table, nothing is written or printed, and MAP_SIZE_LIMIT and the mode are
unchanged. The final pass empties that table whatever the value of LINE_COUNT below 800. -/
theorem scenario_A_run :
    main_loop scenario_A_file (initial_state 30 1 (5 / 4)) = some scenario_A_loaded ∧
    copy_to_vector scenario_A_loaded.kmer_map = [(scenario_A_seq, 2)] ∧
    scenario_A_loaded.most_common_kmer_count = 2 ∧
    main insertion_sort 30 1 (5 / 4) scenario_A_file =
      some { final := { scenario_A_loaded with kmer_map := [] }
             file_records := []
             printed := [] } ∧
    ({ scenario_A_loaded with kmer_map := [] } : MainState).g.MAP_SIZE_LIMIT = 1000 ∧
    ({ scenario_A_loaded with kmer_map := [] } : MainState).g.FAIR_THRESHOLD_MODE = true ∧
    (∀ L : Nat, L < 800 →
      run_clean_map
          { scenario_A_loaded with g := { scenario_A_loaded.g with LINE_COUNT := L } }
        = some { scenario_A_loaded with
                  g := { scenario_A_loaded.g with LINE_COUNT := L }, kmer_map := [] }) := by
  refine ⟨scenario_A_main_loop, rfl, rfl, ?_, rfl, rfl, scenario_A_final_pass_any⟩
  simp only [main, scenario_A_main_loop, scenario_A_final_pass]
  rfl

/-- C8 as stated fails: the run of Scenario A ends with no entry in the table and an empty
top(1), not with one entry of count 2. -/
theorem scenario_A_counterexample :
    ¬ ∃ o, main insertion_sort 30 1 (5 / 4) scenario_A_file = some o ∧
      copy_to_vector o.final.kmer_map = [(scenario_A_seq, 2)] ∧
      o.printed = [(scenario_A_seq, 2)] := by
  intro h
  obtain ⟨o, h1, h2, _⟩ := h
  simp only [main, scenario_A_main_loop, scenario_A_final_pass, Option.some.injEq] at h1
  subst h1
  simp [copy_to_vector] at h2

/-! ## C9: the entry that holds the running maximum, in fair mode -/

theorem one_read_main_loop :
    main_loop one_read_file (initial_state 4 25 (5 / 4)) = some one_read_loaded := by
  rfl

theorem one_read_final_pass :
    run_clean_map one_read_loaded = some { one_read_loaded with kmer_map := [] } := by
  have h1 : Int.tdiv 1000 1 = 1000 := by decide
  have h2 : Int.tdiv 1 10 = 0 := by decide
  have h3 : to_ulong 1 = 1 := by decide
  have hff : fairness_factor 4 1 (5 / 4) = 5 :=
    fairness_factor_five_fourths 4 1 1 h3 (by decide)
  simp [run_clean_map, clean_map, erase_entries, raise_limit, one_read_loaded,
    default_globals, h3, fair_erase, hff, h1, h2]

/-- C9 as stated fails: after main has read a file with the one sequence ACGT (K = 4,
default configuration) the table holds one entry whose count is the running maximum 1, the
mode is fair, and the clean_map pass removes that entry. -/
theorem fair_evicts_maximum_counterexample :
    ∃ st st1 e, main_loop one_read_file (initial_state 4 25 (5 / 4)) = some st ∧
      st.g.FAIR_THRESHOLD_MODE = true ∧ e ∈ st.kmer_map ∧
      e.2 = st.most_common_kmer_count ∧ run_clean_map st = some st1 ∧
      e ∉ st1.kmer_map :=
  ⟨one_read_loaded, { one_read_loaded with kmer_map := [] },
    ({ pattern := codes "ACGT", hash_value := 507 }, 1),
    one_read_main_loop, rfl, List.mem_singleton.2 rfl, rfl, one_read_final_pass,
    List.not_mem_nil _⟩

theorem fairness_factor_ge (L : Nat) (mcc : Int) (f : ℚ) (x : Int)
    (hx0 : 0 ≤ x) (hx24 : x ≤ 2 ^ 24) (hxq : x ≤ ((L / to_ulong mcc : Nat) : Int))
    (hf1 : 1 ≤ f) (hf2 : f ≤ 2) (hL : L ≤ 2 ^ 29) : x ≤ fairness_factor L mcc f := by
  have hx0q : (0 : ℚ) ≤ (x : ℚ) := by exact_mod_cast hx0
  have hq0 : (0 : ℚ) ≤ ((L / to_ulong mcc : Nat) : ℚ) := Nat.cast_nonneg _
  have hqx : (x : ℚ) ≤ ((L / to_ulong mcc : Nat) : ℚ) := by
    have := (Int.cast_le (R := ℚ)).2 hxq
    rwa [Int.cast_natCast] at this
  have hqL : ((L / to_ulong mcc : Nat) : ℚ) ≤ 2 ^ 29 := by
    have h1 : L / to_ulong mcc ≤ L := Nat.div_le_self _ _
    have h2 : L / to_ulong mcc ≤ 2 ^ 29 := le_trans h1 hL
    exact_mod_cast h2
  have a1 : (x : ℚ) ≤ to_float ((L / to_ulong mcc : Nat) : ℚ) :=
    to_float_ge_of_int x _ hx0 hx24 hqx
  have a2 : to_float ((L / to_ulong mcc : Nat) : ℚ) ≤ 2 ^ 29 :=
    to_float_le_two_pow 29 _ hq0 hqL
  have b1 : (1 : ℚ) ≤ to_float f := by
    have := to_float_ge_of_int 1 f (by decide) (by decide) (by simpa using hf1)
    simpa using this
  have b2 : to_float f ≤ 2 := by
    have := to_float_le_two_pow 1 f (by linarith) (by simpa using hf2)
    simpa using this
  have ta0 : (0 : ℚ) ≤ to_float ((L / to_ulong mcc : Nat) : ℚ) := le_trans hx0q a1
  have p1 : (x : ℚ) ≤ to_float ((L / to_ulong mcc : Nat) : ℚ) * to_float f := by
    have := mul_le_mul a1 b1 (by norm_num) ta0
    simpa using this
  have p2 : to_float ((L / to_ulong mcc : Nat) : ℚ) * to_float f ≤ 2 ^ 30 := by
    have := mul_le_mul a2 b2 (by linarith) (by positivity)
    have e : (2 : ℚ) ^ 29 * 2 = 2 ^ 30 := by norm_num
    rw [e] at this
    exact this
  have c1 : (x : ℚ) ≤
      to_float (to_float ((L / to_ulong mcc : Nat) : ℚ) * to_float f) :=
    to_float_ge_of_int x _ hx0 hx24 p1
  have c2 : to_float (to_float ((L / to_ulong mcc : Nat) : ℚ) * to_float f) ≤ 2 ^ 30 :=
    to_float_le_two_pow 30 _ (le_trans hx0q p1) p2
  have c3 : to_float (to_float ((L / to_ulong mcc : Nat) : ℚ) * to_float f)
      ≤ (INT_MAX : ℚ) := by
    have : ((2 : ℚ) ^ 30) ≤ (INT_MAX : ℚ) := by norm_num [INT_MAX]
    linarith
  simp only [fairness_factor]
  rw [float_to_int_of_nonneg _ (le_trans hx0q c1) c3]
  exact Int.le_floor.2 c1

/-- C9, as the code has it: in fair mode (counts >= 1, running maximum >= 1, an int,
MAP_SIZE_LIMIT >= 0) a clean_map pass returns and keeps an entry whose
count equals the running maximum exactly when fairness_factor >= floor(capacity_limit /
running_max_count), where fairness_factor is the int of line 158 (the binary32 product of
floor(lines_seen / running_max_count) and FAIRNESS_CONST, converted to int); in particular
it never removes such an entry when 1 <= fairness_const <= 2, capacity_limit <=
lines_seen <= 2^29 and capacity_limit <= 2^24. -/
theorem fair_keeps_maximum_iff (g : Globals) (m : Table) (mcc : Int)
    (hmode : g.FAIR_THRESHOLD_MODE = true) (hcounts : ∀ e ∈ m, 1 ≤ e.2)
    (hmcc : 1 ≤ mcc) (hint : mcc ≤ INT_MAX) (hcap : 0 ≤ g.MAP_SIZE_LIMIT) :
    ∃ r, clean_map g m mcc = some r ∧
      (∀ e ∈ m, e.2 = mcc → (e ∈ r.2 ↔
        ⌊(g.MAP_SIZE_LIMIT : ℚ) / (mcc : ℚ)⌋
          ≤ fairness_factor g.LINE_COUNT mcc g.FAIRNESS_CONST)) ∧
      (1 ≤ g.FAIRNESS_CONST → g.FAIRNESS_CONST ≤ 2 →
        g.MAP_SIZE_LIMIT ≤ (g.LINE_COUNT : Int) → g.MAP_SIZE_LIMIT ≤ 2 ^ 24 →
        g.LINE_COUNT ≤ 2 ^ 29 →
        ∀ e ∈ m, e.2 = mcc → e ∈ r.2) := by
  have hn : to_ulong mcc = mcc.toNat := to_ulong_of_nonneg mcc (by omega) hint
  have hz : to_ulong mcc ≠ 0 := by rw [hn]; omega
  have hc0 : ∀ e ∈ m, e.2 ≠ 0 := fun e he => by have := hcounts e he; omega
  have hfloor := floor_limit_quot g.MAP_SIZE_LIMIT mcc hcap hmcc
  have hkeep : ∀ e ∈ m, e.2 = mcc →
      (e ∈ m.filter (fun e => !decide
        (fairness_factor g.LINE_COUNT mcc g.FAIRNESS_CONST < g.MAP_SIZE_LIMIT.tdiv e.2)) ↔
       ⌊(g.MAP_SIZE_LIMIT : ℚ) / (mcc : ℚ)⌋
          ≤ fairness_factor g.LINE_COUNT mcc g.FAIRNESS_CONST) := by
    intro e he hem
    simp only [List.mem_filter, he, true_and, hem, Bool.not_eq_true', decide_eq_false_iff_not,
      not_lt, hfloor]
  refine ⟨_, clean_map_fair_table g m mcc hmode hz hc0, hkeep, ?_⟩
  intro hf1 hf2 hL h24 h29 e he hem
  refine (hkeep e he hem).2 ?_
  rw [hfloor, Int.tdiv_eq_ediv hcap (by omega)]
  apply fairness_factor_ge g.LINE_COUNT mcc g.FAIRNESS_CONST _
    (Int.ediv_nonneg hcap (by omega)) _ _ hf1 hf2 h29
  · have : g.MAP_SIZE_LIMIT / mcc ≤ g.MAP_SIZE_LIMIT :=
      Int.ediv_le_self _ hcap
    omega
  · rw [hn, Int.natCast_div, Int.toNat_of_nonneg (by omega)]
    exact Int.ediv_le_ediv (by omega) hL

theorem fair_keeps_maximum_iff_witness :
    ∃ r, clean_map { default_globals with LINE_COUNT := 2000 }
        [(⟨[65, 67], 331⟩, 1), (⟨[67, 71], 347⟩, 900)] 900 = some r ∧
      ((⟨[67, 71], 347⟩, 900) : kmer × Int) ∈ r.2 ∧
      (1 : ℚ) ≤ 5 / 4 ∧ (5 / 4 : ℚ) ≤ 2 := by
  obtain ⟨r, h1, _, h3⟩ := fair_keeps_maximum_iff { default_globals with LINE_COUNT := 2000 }
    [(⟨[65, 67], 331⟩, 1), (⟨[67, 71], 347⟩, 900)] 900 rfl (by decide) (by decide)
    (by decide) (by decide)
  have f1 : (1 : ℚ) ≤ 5 / 4 := by norm_num
  have f2 : (5 / 4 : ℚ) ≤ 2 := by norm_num
  exact ⟨r, h1,
    h3 f1 f2 (by decide) (by decide) (by decide) _ (List.mem_cons_of_mem _ (List.mem_singleton.2 rfl)) rfl,
    f1, f2⟩

/-! ## C10: MAP_SIZE_LIMIT along a run -/

theorem raise_limit_cases (g : Globals) (b a : Int) :
    (raise_limit g b a).MAP_SIZE_LIMIT = g.MAP_SIZE_LIMIT ∨
    (raise_limit g b a).MAP_SIZE_LIMIT = g.MAP_SIZE_LIMIT + 1000 := by
  simp only [raise_limit]
  split
  · right
    split <;> rfl
  · left; rfl

theorem handle_seq_line_g (st : MainState) (line : List Int) :
    (handle_seq_line st line).1.g = st.g := by
  simp only [handle_seq_line]
  split
  · split
    · rfl
    · split <;> rfl
  · rfl

theorem run_clean_map_g (st st1 : MainState) (h : run_clean_map st = some st1) :
    ∃ a : Int, st1.g = raise_limit st.g st.kmer_map.length a := by
  simp only [run_clean_map, clean_map] at h
  cases he : erase_entries st.g st.kmer_map st.most_common_kmer_count with
  | none => simp [he] at h
  | some m =>
    simp only [he, Option.some.injEq] at h
    exact ⟨m.length, by rw [← h]⟩

theorem step_limit (st st1 : MainState) (h : Step st st1) :
    st1.g.MAP_SIZE_LIMIT = st.g.MAP_SIZE_LIMIT ∨
    st1.g.MAP_SIZE_LIMIT = st.g.MAP_SIZE_LIMIT + 1000 := by
  cases h with
  | count_line => left; rfl
  | ingest line => left; rw [handle_seq_line_g]
  | evict _ hc =>
    obtain ⟨a, ha⟩ := run_clean_map_g st st1 hc
    rw [ha]
    exact raise_limit_cases st.g _ a

theorem reachable_trans (st0 st1 st2 : MainState) (h1 : Reachable st0 st1)
    (h2 : Reachable st1 st2) : Reachable st0 st2 := by
  induction h2 with
  | start => exact h1
  | step st st' _ hs ih => exact Reachable.step st st' ih hs

theorem main_body_reachable (st st1 : MainState) (line : List Int) (b : Bool)
    (h : main_body st line = some (st1, b)) : Reachable st st1 := by
  have hc : Reachable st
      { st with g := { st.g with LINE_COUNT := st.g.LINE_COUNT + 1 } } :=
    Reachable.step _ _ Reachable.start (Step.count_line st)
  have hi : Reachable st
      (handle_seq_line { st with g := { st.g with LINE_COUNT := st.g.LINE_COUNT + 1 } }
        line).1 :=
    Reachable.step _ _ hc (Step.ingest _ line)
  simp only [main_body] at h
  split at h
  · simp only [Option.some.injEq, Prod.mk.injEq] at h
    rw [← h.1]; exact hc
  · split at h
    · simp only [Option.some.injEq, Prod.mk.injEq] at h
      rw [← h.1]; exact hi
    · split at h
      · cases hr : run_clean_map (handle_seq_line
            { st with g := { st.g with LINE_COUNT := st.g.LINE_COUNT + 1 } } line).1 with
        | none => simp [hr] at h
        | some st2 =>
          simp only [hr, Option.some.injEq, Prod.mk.injEq] at h
          rw [← h.1]
          exact Reachable.step _ _ hi (Step.evict _ st2 hr)
      · simp only [Option.some.injEq, Prod.mk.injEq] at h
        rw [← h.1]; exact hi

theorem main_loop_reachable :
    ∀ (lines : List (List Int)) (st st1 : MainState),
      main_loop lines st = some st1 → Reachable st st1 := by
  intro lines
  induction lines with
  | nil =>
    intro st st1 h
    simp only [main_loop, Option.some.injEq] at h
    rw [← h]; exact Reachable.start
  | cons line rest ih =>
    intro st st1 h
    simp only [main_loop] at h
    cases hb : main_body st line with
    | none => simp [hb] at h
    | some r =>
      obtain ⟨st2, b⟩ := r
      have h2 := main_body_reachable st st2 line b hb
      cases b with
      | true =>
        simp only [hb] at h
        exact reachable_trans st st2 st1 h2 (ih st2 st1 h)
      | false =>
        simp only [hb, Option.some.injEq] at h
        rw [← h]; exact h2

theorem main_reachable (sort : List (List Int × Int) → List (List Int × Int))
    (kmer_size : Nat) (top_count : Int) (fairness_const : ℚ) (lines : List (List Int))
    (o : Output) (h : main sort kmer_size top_count fairness_const lines = some o) :
    Reachable (initial_state kmer_size top_count fairness_const) o.final := by
  simp only [main] at h
  cases hl : main_loop lines (initial_state kmer_size top_count fairness_const) with
  | none => simp [hl] at h
  | some st =>
    cases hc : run_clean_map st with
    | none => simp [hl, hc] at h
    | some st1 =>
      simp only [hl, hc, Option.some.injEq] at h
      rw [← h]
      exact Reachable.step _ _ (main_loop_reachable lines _ st hl) (Step.evict st st1 hc)

theorem one_read_drained_start :
    run_clean_map one_read_loaded = some (one_read_drained 0) := by
  rw [one_read_final_pass]
  rfl

theorem run_clean_map_empty (st : MainState) (hk : st.kmer_map = [])
    (hdef : st.g.FAIR_THRESHOLD_MODE = false ∨ to_ulong st.most_common_kmer_count ≠ 0) :
    run_clean_map st = some { st with g := raise_limit st.g 0 0, kmer_map := [] } := by
  have hc := clean_map_empty st.g st.most_common_kmer_count hdef
  simp only [run_clean_map, hk, hc]

theorem one_read_drained_step (j : Nat) :
    run_clean_map (one_read_drained j) = some (one_read_drained (j + 1)) := by
  have hz : to_ulong 1 ≠ 0 := by decide
  rw [run_clean_map_empty (one_read_drained j) rfl (Or.inr hz), raise_limit_empty]
  have e : (1000 : Int) + 1000 * ((j + 1 : Nat) : Int) = 1000 + 1000 * (j : Int) + 1000 := by
    push_cast; ring
  have hl : (one_read_drained j).g.MAP_SIZE_LIMIT = 1000 + 1000 * (j : Int) := rfl
  rw [hl]
  by_cases h : (1000 : Int) + 1000 * (j : Int) + 1000 ≥ 15000
  · have h2 : decide ((1000 : Int) + 1000 * ((j + 1 : Nat) : Int) < 15000) = false :=
      decide_eq_false (by omega)
    rw [if_pos h]
    unfold one_read_drained
    rw [h2, e]
  · have h2 : decide ((1000 : Int) + 1000 * ((j + 1 : Nat) : Int) < 15000) = true :=
      decide_eq_true (by omega)
    have h3 : decide ((1000 : Int) + 1000 * (j : Int) < 15000) = true :=
      decide_eq_true (by omega)
    rw [if_neg h]
    unfold one_read_drained
    rw [h2, h3, e]

theorem one_read_drained_reachable (j : Nat) :
    Reachable (initial_state 4 25 (5 / 4)) (one_read_drained j) := by
  induction j with
  | zero =>
    exact Reachable.step _ _ (main_loop_reachable _ _ _ one_read_main_loop)
      (Step.evict _ _ one_read_drained_start)
  | succ j ih =>
    exact Reachable.step _ _ ih (Step.evict _ _ (one_read_drained_step j))

/-- C10: in every state reachable from a start state by any sequence of steps (a line is
counted, a sequence is ingested, an eviction pass runs), MAP_SIZE_LIMIT is >= its start
value and equals the start value plus 1000 * j for a natural number j; and a further step
never lowers it and changes it by 0 or by exactly 1000. The start value of main is
1000. -/
theorem capacity_monotonicity (st0 st : MainState) (h : Reachable st0 st) :
    st0.g.MAP_SIZE_LIMIT ≤ st.g.MAP_SIZE_LIMIT ∧
    (∃ j : Nat, st.g.MAP_SIZE_LIMIT = st0.g.MAP_SIZE_LIMIT + 1000 * (j : Int)) ∧
    (∀ st1, Step st st1 →
      st.g.MAP_SIZE_LIMIT ≤ st1.g.MAP_SIZE_LIMIT ∧
      (st1.g.MAP_SIZE_LIMIT = st.g.MAP_SIZE_LIMIT ∨
       st1.g.MAP_SIZE_LIMIT = st.g.MAP_SIZE_LIMIT + 1000)) ∧
    (∀ (kmer_size : Nat) (top_count : Int) (fairness_const : ℚ),
      (initial_state kmer_size top_count fairness_const).g.MAP_SIZE_LIMIT = 1000) := by
  have hj : ∃ j : Nat, st.g.MAP_SIZE_LIMIT = st0.g.MAP_SIZE_LIMIT + 1000 * (j : Int) := by
    induction h with
    | start => exact ⟨0, by simp⟩
    | step st st' _ hs ih =>
      obtain ⟨j, hj⟩ := ih
      rcases step_limit st st' hs with e | e
      · exact ⟨j, by rw [e, hj]⟩
      · exact ⟨j + 1, by rw [e, hj]; push_cast; ring⟩
  refine ⟨?_, hj, ?_, fun _ _ _ => rfl⟩
  · obtain ⟨j, hj⟩ := hj
    rw [hj]; omega
  · intro st1 hs
    have hc := step_limit st st1 hs
    refine ⟨?_, hc⟩
    rcases hc with e | e
    · rw [e]
    · rw [e]; omega

theorem capacity_monotonicity_witness :
    main_loop one_read_file (initial_state 4 25 (5 / 4)) = some one_read_loaded ∧
    run_clean_map one_read_loaded = some (one_read_drained 0) ∧
    run_clean_map (one_read_drained 0) = some (one_read_drained 1) ∧
    (one_read_drained 0).g.MAP_SIZE_LIMIT = 1000 ∧
    (one_read_drained 1).g.MAP_SIZE_LIMIT = 2000 ∧
    Reachable (initial_state 4 25 (5 / 4)) (one_read_drained 1) ∧
    ((initial_state 4 25 (5 / 4)).g.MAP_SIZE_LIMIT ≤ (one_read_drained 1).g.MAP_SIZE_LIMIT ∧
     (∃ j : Nat, (one_read_drained 1).g.MAP_SIZE_LIMIT =
       (initial_state 4 25 (5 / 4)).g.MAP_SIZE_LIMIT + 1000 * (j : Int)) ∧
     (∀ st1, Step (one_read_drained 1) st1 →
       (one_read_drained 1).g.MAP_SIZE_LIMIT ≤ st1.g.MAP_SIZE_LIMIT ∧
       (st1.g.MAP_SIZE_LIMIT = (one_read_drained 1).g.MAP_SIZE_LIMIT ∨
        st1.g.MAP_SIZE_LIMIT = (one_read_drained 1).g.MAP_SIZE_LIMIT + 1000)) ∧
     (∀ (kmer_size : Nat) (top_count : Int) (fairness_const : ℚ),
       (initial_state kmer_size top_count fairness_const).g.MAP_SIZE_LIMIT = 1000)) :=
  ⟨one_read_main_loop, one_read_drained_start, one_read_drained_step 0, by decide, by decide,
    one_read_drained_reachable 1,
    capacity_monotonicity (initial_state 4 25 (5 / 4)) (one_read_drained 1)
      (one_read_drained_reachable 1)⟩

/-! ## C11: the threshold mode along a run -/

theorem raise_limit_mode (g : Globals) (b a : Int) :
    ((raise_limit g b a).FAIR_THRESHOLD_MODE = g.FAIR_THRESHOLD_MODE ∧
      (raise_limit g b a).MAP_SIZE_LIMIT = g.MAP_SIZE_LIMIT) ∨
    ((raise_limit g b a).MAP_SIZE_LIMIT = g.MAP_SIZE_LIMIT + 1000 ∧
      ((15000 ≤ g.MAP_SIZE_LIMIT + 1000 ∧ (raise_limit g b a).FAIR_THRESHOLD_MODE = false) ∨
       (g.MAP_SIZE_LIMIT + 1000 < 15000 ∧
        (raise_limit g b a).FAIR_THRESHOLD_MODE = g.FAIR_THRESHOLD_MODE))) := by
  by_cases hr : ¬ ((b - a) > b.tdiv 10)
  · right
    by_cases h : g.MAP_SIZE_LIMIT + 1000 ≥ 15000
    · have e : raise_limit g b a =
          { g with MAP_SIZE_LIMIT := g.MAP_SIZE_LIMIT + 1000, FAIR_THRESHOLD_MODE := false } := by
        simp only [raise_limit, hr, h, if_true, not_false_eq_true]
      rw [e]
      exact ⟨rfl, Or.inl ⟨h, rfl⟩⟩
    · have e : raise_limit g b a = { g with MAP_SIZE_LIMIT := g.MAP_SIZE_LIMIT + 1000 } := by
        simp only [raise_limit, hr, h, if_true, if_false, not_false_eq_true]
      rw [e]
      exact ⟨rfl, Or.inr ⟨by omega, rfl⟩⟩
  · left
    have e : raise_limit g b a = g := by
      simp only [raise_limit, hr, if_false]
    rw [e]
    exact ⟨rfl, rfl⟩

theorem step_mode (st st1 : MainState) (h : Step st st1) :
    (st1.g.FAIR_THRESHOLD_MODE = st.g.FAIR_THRESHOLD_MODE ∧
      st1.g.MAP_SIZE_LIMIT = st.g.MAP_SIZE_LIMIT) ∨
    (run_clean_map st = some st1 ∧
      st1.g.MAP_SIZE_LIMIT = st.g.MAP_SIZE_LIMIT + 1000 ∧
      ((15000 ≤ st.g.MAP_SIZE_LIMIT + 1000 ∧ st1.g.FAIR_THRESHOLD_MODE = false) ∨
       (st.g.MAP_SIZE_LIMIT + 1000 < 15000 ∧
        st1.g.FAIR_THRESHOLD_MODE = st.g.FAIR_THRESHOLD_MODE))) := by
  cases h with
  | count_line => left; exact ⟨rfl, rfl⟩
  | ingest line => left; rw [handle_seq_line_g]; exact ⟨rfl, rfl⟩
  | evict _ hc =>
    obtain ⟨a, ha⟩ := run_clean_map_g st st1 hc
    rcases raise_limit_mode st.g st.kmer_map.length a with h | h
    · left; rw [ha]; exact h
    · right; rw [ha]; exact ⟨hc, h⟩

theorem mode_invariant (st0 st : MainState) (h : Reachable st0 st)
    (hmode : st0.g.FAIR_THRESHOLD_MODE = true) (hlimit : st0.g.MAP_SIZE_LIMIT < 15000) :
    (st.g.FAIR_THRESHOLD_MODE = false ↔ 15000 ≤ st.g.MAP_SIZE_LIMIT) := by
  induction h with
  | start => simp [hmode]; omega
  | step st st1 _ hs ih =>
    rcases step_mode st st1 hs with ⟨hm, hl⟩ | ⟨_, hl, ⟨h15, hm⟩ | ⟨h15, hm⟩⟩
    · rw [hm, hl]; exact ih
    · rw [hm, hl]; exact ⟨fun _ => h15, fun _ => rfl⟩
    · rw [hm, hl]
      constructor
      · intro hf
        have := ih.1 hf
        omega
      · intro hge
        omega

theorem harsh_stays (st st2 : MainState) (h : Reachable st st2)
    (hmode : st.g.FAIR_THRESHOLD_MODE = false) : st2.g.FAIR_THRESHOLD_MODE = false := by
  induction h with
  | start => exact hmode
  | step sta stb _ hs ih =>
    rcases step_mode sta stb hs with ⟨hm, _⟩ | ⟨_, _, ⟨_, hm⟩ | ⟨_, hm⟩⟩
    · rw [hm]; exact ih
    · exact hm
    · rw [hm]; exact ih

/-- C11: along every run that starts in fair mode with MAP_SIZE_LIMIT below 15000 (main
starts with 1000), in every reachable state the mode is harsh if and only if
MAP_SIZE_LIMIT >= 15000; once the mode is harsh it is harsh in every later state; and a
step changes the mode from fair to harsh only if it is a clean_map pass that raised
MAP_SIZE_LIMIT by 1000 from a value below 15000 to a value >= 15000. -/
theorem mode_transition (st0 st : MainState) (h : Reachable st0 st)
    (hmode : st0.g.FAIR_THRESHOLD_MODE = true) (hlimit : st0.g.MAP_SIZE_LIMIT < 15000) :
    (st.g.FAIR_THRESHOLD_MODE = false ↔ 15000 ≤ st.g.MAP_SIZE_LIMIT) ∧
    (∀ st2, Reachable st st2 → st.g.FAIR_THRESHOLD_MODE = false →
      st2.g.FAIR_THRESHOLD_MODE = false) ∧
    (∀ st1, Step st st1 → st.g.FAIR_THRESHOLD_MODE = true →
      st1.g.FAIR_THRESHOLD_MODE = false →
      run_clean_map st = some st1 ∧ st.g.MAP_SIZE_LIMIT < 15000 ∧
      15000 ≤ st1.g.MAP_SIZE_LIMIT ∧
      st1.g.MAP_SIZE_LIMIT = st.g.MAP_SIZE_LIMIT + 1000) ∧
    (∀ (kmer_size : Nat) (top_count : Int) (fairness_const : ℚ),
      (initial_state kmer_size top_count fairness_const).g.FAIR_THRESHOLD_MODE = true ∧
      (initial_state kmer_size top_count fairness_const).g.MAP_SIZE_LIMIT = 1000) := by
  have hinv := mode_invariant st0 st h hmode hlimit
  refine ⟨hinv, fun st2 h2 hm => harsh_stays st st2 h2 hm, ?_, fun _ _ _ => ⟨rfl, rfl⟩⟩
  intro st1 hs hfair hharsh
  have hlt : st.g.MAP_SIZE_LIMIT < 15000 := by
    by_contra hge
    have := hinv.2 (by omega)
    rw [hfair] at this
    exact absurd this (by decide)
  rcases step_mode st st1 hs with ⟨hm, _⟩ | ⟨hc, hl, ⟨h15, _⟩ | ⟨_, hm⟩⟩
  · rw [hm, hfair] at hharsh; exact absurd hharsh (by decide)
  · exact ⟨hc, hlt, by rw [hl]; exact h15, hl⟩
  · rw [hm, hfair] at hharsh; exact absurd hharsh (by decide)

theorem mode_transition_witness :
    (initial_state 4 25 (5 / 4)).g.FAIR_THRESHOLD_MODE = true ∧
    (initial_state 4 25 (5 / 4)).g.MAP_SIZE_LIMIT < 15000 ∧
    Reachable (initial_state 4 25 (5 / 4)) (one_read_drained 13) ∧
    Step (one_read_drained 13) (one_read_drained 14) ∧
    (one_read_drained 13).g.MAP_SIZE_LIMIT = 14000 ∧
    (one_read_drained 13).g.FAIR_THRESHOLD_MODE = true ∧
    (one_read_drained 14).g.MAP_SIZE_LIMIT = 15000 ∧
    (one_read_drained 14).g.FAIR_THRESHOLD_MODE = false ∧
    (one_read_drained 15).g.MAP_SIZE_LIMIT = 16000 ∧
    (one_read_drained 15).g.FAIR_THRESHOLD_MODE = false ∧
    (((one_read_drained 13).g.FAIR_THRESHOLD_MODE = false ↔ 15000 ≤ (one_read_drained 13).g.MAP_SIZE_LIMIT) ∧
     (∀ st2, Reachable (one_read_drained 13) st2 → (one_read_drained 13).g.FAIR_THRESHOLD_MODE = false →
       st2.g.FAIR_THRESHOLD_MODE = false) ∧
     (∀ st1, Step (one_read_drained 13) st1 → (one_read_drained 13).g.FAIR_THRESHOLD_MODE = true →
       st1.g.FAIR_THRESHOLD_MODE = false →
       run_clean_map (one_read_drained 13) = some st1 ∧ (one_read_drained 13).g.MAP_SIZE_LIMIT < 15000 ∧
       15000 ≤ st1.g.MAP_SIZE_LIMIT ∧
       st1.g.MAP_SIZE_LIMIT = (one_read_drained 13).g.MAP_SIZE_LIMIT + 1000) ∧
     (∀ (kmer_size : Nat) (top_count : Int) (fairness_const : ℚ),
       (initial_state kmer_size top_count fairness_const).g.FAIR_THRESHOLD_MODE = true ∧
       (initial_state kmer_size top_count fairness_const).g.MAP_SIZE_LIMIT = 1000)) ∧
    (((one_read_drained 14).g.FAIR_THRESHOLD_MODE = false ↔ 15000 ≤ (one_read_drained 14).g.MAP_SIZE_LIMIT) ∧
     (∀ st2, Reachable (one_read_drained 14) st2 → (one_read_drained 14).g.FAIR_THRESHOLD_MODE = false →
       st2.g.FAIR_THRESHOLD_MODE = false) ∧
     (∀ st1, Step (one_read_drained 14) st1 → (one_read_drained 14).g.FAIR_THRESHOLD_MODE = true →
       st1.g.FAIR_THRESHOLD_MODE = false →
       run_clean_map (one_read_drained 14) = some st1 ∧ (one_read_drained 14).g.MAP_SIZE_LIMIT < 15000 ∧
       15000 ≤ st1.g.MAP_SIZE_LIMIT ∧
       st1.g.MAP_SIZE_LIMIT = (one_read_drained 14).g.MAP_SIZE_LIMIT + 1000) ∧
     (∀ (kmer_size : Nat) (top_count : Int) (fairness_const : ℚ),
       (initial_state kmer_size top_count fairness_const).g.FAIR_THRESHOLD_MODE = true ∧
       (initial_state kmer_size top_count fairness_const).g.MAP_SIZE_LIMIT = 1000)) :=
  ⟨rfl, by decide, one_read_drained_reachable 13,
    Step.evict _ _ (one_read_drained_step 13), by decide, by decide, by decide, by decide,
    by decide, by decide,
    mode_transition (initial_state 4 25 (5 / 4)) (one_read_drained 13)
      (one_read_drained_reachable 13) rfl (by decide),
    mode_transition (initial_state 4 25 (5 / 4)) (one_read_drained 14)
      (one_read_drained_reachable 14) rfl (by decide)⟩

/-! ## Lemmas on the counts of the table -/

theorem increment_mem (k : kmer) :
    ∀ (m : Table) (e : kmer × Int), e ∈ (increment m k).1 →
      e ∈ m ∨ e.2 = (increment m k).2 := by
  intro m
  induction m with
  | nil =>
    intro e he
    simp only [increment, List.mem_singleton] at he
    right; rw [he]; rfl
  | cons x m ih =>
    intro e he
    obtain ⟨k0, v⟩ := x
    by_cases hk : k0.equals k = true
    · simp only [increment, hk, if_true, List.mem_cons] at he ⊢
      rcases he with h | h
      · right; rw [h]
      · left; right; exact h
    · simp only [increment, hk, List.mem_cons] at he ⊢
      simp only [Bool.false_eq_true, if_false, List.mem_cons] at he ⊢
      rcases he with h | h
      · left; left; exact h
      · rcases ih e h with h2 | h2
        · left; right; exact h2
        · right; exact h2

theorem increment_pos (k : kmer) :
    ∀ m : Table, (∀ e ∈ m, 1 ≤ e.2) → ∀ e ∈ (increment m k).1, 1 ≤ e.2 := by
  intro m
  induction m with
  | nil =>
    intro _ e he
    simp only [increment, List.mem_singleton] at he
    rw [he]
    show (1 : Int) ≤ 0 + 1
    omega
  | cons x m ih =>
    intro hm e he
    obtain ⟨k0, v⟩ := x
    have hv : 1 ≤ v := hm (k0, v) (List.mem_cons_self _ _)
    have hm2 : ∀ e ∈ m, 1 ≤ e.2 := fun e he => hm e (List.mem_cons_of_mem _ he)
    by_cases hk : k0.equals k = true
    · simp only [increment, hk, if_true, List.mem_cons] at he
      rcases he with h | h
      · rw [h]; show 1 ≤ v + 1; omega
      · exact hm2 e h
    · simp only [increment, hk, Bool.false_eq_true, if_false, List.mem_cons] at he
      rcases he with h | h
      · rw [h]; exact hv
      · exact ih hm2 e h

theorem loop_state_counts_le (K : Nat) (s : List Int) (m : Table) (mc : Int)
    (hm : ∀ e ∈ m, e.2 ≤ mc) :
    ∀ n : Nat, ∀ e ∈ (loop_state K s m mc n).kmer_map,
      e.2 ≤ (loop_state K s m mc n).most_common_count := by
  intro n
  induction n with
  | zero => intro e he; exact hm e he
  | succ n ih =>
    intro e he
    rw [loop_state_succ] at he ⊢
    simp only [seq_body] at he ⊢
    rcases increment_mem _ _ e he with h | h
    · have := ih e h
      split <;> omega
    · rw [h]
      split <;> omega

theorem loop_state_counts_pos (K : Nat) (s : List Int) (m : Table) (mc : Int)
    (hm : ∀ e ∈ m, 1 ≤ e.2) :
    ∀ n : Nat, ∀ e ∈ (loop_state K s m mc n).kmer_map, 1 ≤ e.2 := by
  intro n
  induction n with
  | zero => intro e he; exact hm e he
  | succ n ih =>
    intro e he
    rw [loop_state_succ] at he
    simp only [seq_body] at he
    exact increment_pos _ _ ih e he

theorem process_seq_short (K : Nat) (s : List Int) (m : Table) (mc : Int)
    (h : s.length < K) : process_seq K s m mc = (-1, m) := by
  simp [process_seq, h]

theorem process_seq_counts_le (K : Nat) (s : List Int) (m : Table) (mc : Int)
    (hm : ∀ e ∈ m, e.2 ≤ mc) (h : K ≤ s.length) :
    mc ≤ (process_seq K s m mc).1 ∧
    ∀ e ∈ (process_seq K s m mc).2, e.2 ≤ (process_seq K s m mc).1 := by
  rw [process_seq_eq_loop_state K s m mc h]
  exact ⟨loop_state_most_common_ge K s m mc _, loop_state_counts_le K s m mc hm _⟩

theorem process_seq_counts_pos (K : Nat) (s : List Int) (m : Table) (mc : Int)
    (hm : ∀ e ∈ m, 1 ≤ e.2) : ∀ e ∈ (process_seq K s m mc).2, 1 ≤ e.2 := by
  by_cases h : s.length < K
  · rw [process_seq_short K s m mc h]; exact hm
  · rw [process_seq_eq_loop_state K s m mc (by omega)]
    exact loop_state_counts_pos K s m mc hm _

theorem fair_erase_sublist (cap ff : Int) :
    ∀ m r : Table, fair_erase cap ff m = some r → r.Sublist m := by
  intro m
  induction m with
  | nil =>
    intro r h
    simp only [fair_erase, Option.some.injEq] at h
    rw [← h]
  | cons x m ih =>
    intro r h
    obtain ⟨k, v⟩ := x
    by_cases hv : v = 0
    · simp [fair_erase, hv] at h
    · simp only [fair_erase, hv, if_false] at h
      cases hr : fair_erase cap ff m with
      | none => simp [hr] at h
      | some r0 =>
        simp only [hr] at h
        have hs := ih r0 hr
        split at h
        · simp only [Option.some.injEq] at h
          rw [← h]; exact List.Sublist.cons _ hs
        · simp only [Option.some.injEq] at h
          rw [← h]; exact List.Sublist.cons₂ _ hs

theorem clean_map_sublist (g : Globals) (m : Table) (mcc : Int) (r : Globals × Table)
    (h : clean_map g m mcc = some r) :
    r.2.Sublist m ∧ r.1 = raise_limit g m.length r.2.length := by
  simp only [clean_map] at h
  cases he : erase_entries g m mcc with
  | none => simp [he] at h
  | some m1 =>
    simp only [he, Option.some.injEq] at h
    rw [← h]
    refine ⟨?_, rfl⟩
    simp only [erase_entries] at he
    split at he
    · split at he
      · exact absurd he (by simp)
      · exact fair_erase_sublist _ _ m m1 he
    · simp only [Option.some.injEq] at he
      rw [← he, harsh_erase_eq]
      exact List.filter_sublist m

theorem run_clean_map_frame (st st1 : MainState) (h : run_clean_map st = some st1) :
    st1.kmer_map.Sublist st.kmer_map ∧
    st1.most_common_kmer_count = st.most_common_kmer_count ∧
    st1.g = raise_limit st.g st.kmer_map.length st1.kmer_map.length := by
  simp only [run_clean_map] at h
  cases hc : clean_map st.g st.kmer_map st.most_common_kmer_count with
  | none => simp [hc] at h
  | some r =>
    simp only [hc, Option.some.injEq] at h
    obtain ⟨h1, h2⟩ := clean_map_sublist _ _ _ r hc
    rw [← h]
    exact ⟨h1, rfl, h2⟩

theorem handle_seq_line_short (st : MainState) (line : List Int)
    (h : (first_word line).length < st.g.KMER_SIZE) : (handle_seq_line st line).1 = st := by
  by_cases hl : line = []
  · simp [handle_seq_line, hl]
  · simp [handle_seq_line, hl, process_seq_short _ _ _ _ h]

theorem handle_seq_line_max (st : MainState) (line : List Int)
    (h0 : 0 ≤ st.most_common_kmer_count)
    (hm : ∀ e ∈ st.kmer_map, e.2 ≤ st.most_common_kmer_count) :
    st.most_common_kmer_count ≤ (handle_seq_line st line).1.most_common_kmer_count ∧
    ∀ e ∈ (handle_seq_line st line).1.kmer_map,
      e.2 ≤ (handle_seq_line st line).1.most_common_kmer_count := by
  by_cases hl : line = []
  · simp only [handle_seq_line, hl, ne_eq, not_true_eq_false, if_false]
    exact ⟨le_refl _, hm⟩
  · by_cases hs : (first_word line).length < st.g.KMER_SIZE
    · rw [handle_seq_line_short st line hs]
      exact ⟨le_refl _, hm⟩
    · obtain ⟨h1, h2⟩ := process_seq_counts_le st.g.KMER_SIZE (first_word line) st.kmer_map
        st.most_common_kmer_count hm (by omega)
      have hne : ¬ (process_seq st.g.KMER_SIZE (first_word line) st.kmer_map
          st.most_common_kmer_count).1 = -1 := by omega
      simp only [handle_seq_line, hl, ne_eq, not_false_eq_true, if_true, hne, if_false]
      split
      · exact ⟨h1, h2⟩
      · refine ⟨le_refl _, fun e he => ?_⟩
        have := h2 e he
        simp only at this ⊢
        omega

theorem handle_seq_line_pos (st : MainState) (line : List Int)
    (hm : ∀ e ∈ st.kmer_map, 1 ≤ e.2) :
    ∀ e ∈ (handle_seq_line st line).1.kmer_map, 1 ≤ e.2 := by
  have hp := process_seq_counts_pos st.g.KMER_SIZE (first_word line) st.kmer_map
    st.most_common_kmer_count hm
  simp only [handle_seq_line]
  split
  · split
    · exact hp
    · split
      · exact hp
      · exact hp
  · exact hm

theorem step_max (st st1 : MainState) (h : Step st st1)
    (h0 : 0 ≤ st.most_common_kmer_count)
    (hm : ∀ e ∈ st.kmer_map, e.2 ≤ st.most_common_kmer_count) :
    st.most_common_kmer_count ≤ st1.most_common_kmer_count ∧
    ∀ e ∈ st1.kmer_map, e.2 ≤ st1.most_common_kmer_count := by
  cases h with
  | count_line => exact ⟨le_refl _, hm⟩
  | ingest line => exact handle_seq_line_max st line h0 hm
  | evict _ hc =>
    obtain ⟨hs, hmc, _⟩ := run_clean_map_frame st st1 hc
    rw [hmc]
    exact ⟨le_refl _, fun e he => hm e (hs.subset he)⟩

theorem reachable_max (st0 st : MainState) (h : Reachable st0 st)
    (htable : st0.kmer_map = []) (hmax : st0.most_common_kmer_count = 0) :
    0 ≤ st.most_common_kmer_count ∧
    ∀ e ∈ st.kmer_map, e.2 ≤ st.most_common_kmer_count := by
  induction h with
  | start =>
    rw [htable, hmax]
    exact ⟨le_refl _, fun e he => absurd he (List.not_mem_nil e)⟩
  | step st st1 _ hs ih =>
    obtain ⟨i0, im⟩ := ih
    obtain ⟨s1, s2⟩ := step_max st st1 hs i0 im
    exact ⟨by omega, s2⟩

theorem reachable_pos (st0 st : MainState) (h : Reachable st0 st)
    (htable : st0.kmer_map = []) : ∀ e ∈ st.kmer_map, 1 ≤ e.2 := by
  induction h with
  | start => rw [htable]; exact fun e he => absurd he (List.not_mem_nil e)
  | step st st1 _ hs ih =>
    cases hs with
    | count_line => exact ih
    | ingest line => exact handle_seq_line_pos st line ih
    | evict _ hc =>
      obtain ⟨hsub, _, _⟩ := run_clean_map_frame st st1 hc
      exact fun e he => ih e (hsub.subset he)

/-! ## C12: the running maximum -/

/-- C12: in every state reachable from the empty table with running maximum 0, the running
maximum is >= the count of every entry of the table, and no step lowers it. For every
table whose counts are all <= the running maximum, process_seq on a sequence of length
>= K followed by the update of main leaves a running maximum that is >= the count of every
entry and >= its previous value; a sequence shorter than K leaves the state as it is, and
a clean_map pass leaves the running maximum as it is. -/
theorem running_max_invariant (st0 st : MainState) (h : Reachable st0 st)
    (htable : st0.kmer_map = []) (hmax : st0.most_common_kmer_count = 0) :
    (∀ e ∈ st.kmer_map, e.2 ≤ st.most_common_kmer_count) ∧
    st0.most_common_kmer_count ≤ st.most_common_kmer_count ∧
    (∀ st1, Step st st1 → st.most_common_kmer_count ≤ st1.most_common_kmer_count) ∧
    (∀ (K : Nat) (s : List Int) (m : Table) (mc : Int),
      (∀ e ∈ m, e.2 ≤ mc) → K ≤ s.length →
      mc ≤ (if (process_seq K s m mc).1 > mc then (process_seq K s m mc).1 else mc) ∧
      ∀ e ∈ (process_seq K s m mc).2,
        e.2 ≤ (if (process_seq K s m mc).1 > mc then (process_seq K s m mc).1 else mc)) ∧
    (∀ line : List Int, (first_word line).length < st.g.KMER_SIZE →
      (handle_seq_line st line).1 = st) ∧
    (∀ st1, run_clean_map st = some st1 →
      st1.most_common_kmer_count = st.most_common_kmer_count) := by
  obtain ⟨h0, hm⟩ := reachable_max st0 st h htable hmax
  refine ⟨hm, by rw [hmax]; exact h0, fun st1 hs => (step_max st st1 hs h0 hm).1, ?_, ?_, ?_⟩
  · intro K s m mc hle hlen
    obtain ⟨h1, h2⟩ := process_seq_counts_le K s m mc hle hlen
    constructor
    · split <;> omega
    · intro e he
      have := h2 e he
      split <;> omega
  · intro line hs
    rw [handle_seq_line_short st line hs]
  · intro st1 hc
    exact (run_clean_map_frame st st1 hc).2.1

theorem running_max_invariant_witness :
    (∀ e ∈ (handle_seq_line (initial_state 2 25 (5 / 4)) [65, 67, 65, 67]).1.kmer_map,
      e.2 ≤ (handle_seq_line (initial_state 2 25 (5 / 4))
        [65, 67, 65, 67]).1.most_common_kmer_count) ∧
    (initial_state 2 25 (5 / 4)).most_common_kmer_count ≤
      (handle_seq_line (initial_state 2 25 (5 / 4)) [65, 67, 65, 67]).1.most_common_kmer_count ∧
    (∀ st1, Step (handle_seq_line (initial_state 2 25 (5 / 4)) [65, 67, 65, 67]).1 st1 →
      (handle_seq_line (initial_state 2 25 (5 / 4)) [65, 67, 65, 67]).1.most_common_kmer_count
        ≤ st1.most_common_kmer_count) ∧
    (∀ (K : Nat) (s : List Int) (m : Table) (mc : Int),
      (∀ e ∈ m, e.2 ≤ mc) → K ≤ s.length →
      mc ≤ (if (process_seq K s m mc).1 > mc then (process_seq K s m mc).1 else mc) ∧
      ∀ e ∈ (process_seq K s m mc).2,
        e.2 ≤ (if (process_seq K s m mc).1 > mc then (process_seq K s m mc).1 else mc)) ∧
    (∀ line : List Int, (first_word line).length <
        (handle_seq_line (initial_state 2 25 (5 / 4)) [65, 67, 65, 67]).1.g.KMER_SIZE →
      (handle_seq_line (handle_seq_line (initial_state 2 25 (5 / 4)) [65, 67, 65, 67]).1 line).1
        = (handle_seq_line (initial_state 2 25 (5 / 4)) [65, 67, 65, 67]).1) ∧
    (∀ st1, run_clean_map (handle_seq_line (initial_state 2 25 (5 / 4)) [65, 67, 65, 67]).1
        = some st1 →
      st1.most_common_kmer_count =
        (handle_seq_line (initial_state 2 25 (5 / 4))
          [65, 67, 65, 67]).1.most_common_kmer_count) :=
  running_max_invariant (initial_state 2 25 (5 / 4))
    (handle_seq_line (initial_state 2 25 (5 / 4)) [65, 67, 65, 67]).1
    (Reachable.step _ _ Reachable.start
      (Step.ingest (initial_state 2 25 (5 / 4)) [65, 67, 65, 67]))
    rfl rfl

/-! ## C13: positive counts -/

/-- C13: in every state reachable from the empty table by any sequence of steps
(process_seq calls, clean_map passes, counted lines), every entry of the table has a count
>= 1, so no divisor of the division MAP_SIZE_LIMIT / count of the fair mode is zero: the
erase loop of the fair mode returns for every limit and fairness factor. -/
theorem positive_counts (st0 st : MainState) (h : Reachable st0 st)
    (htable : st0.kmer_map = []) :
    (∀ e ∈ st.kmer_map, 1 ≤ e.2) ∧
    (∀ e ∈ st.kmer_map, e.2 ≠ 0) ∧
    (∀ cap ff : Int, ∃ r, fair_erase cap ff st.kmer_map = some r) := by
  have hp := reachable_pos st0 st h htable
  have hz : ∀ e ∈ st.kmer_map, e.2 ≠ 0 := fun e he => by have := hp e he; omega
  exact ⟨hp, hz, fun cap ff => ⟨_, fair_erase_eq cap ff st.kmer_map hz⟩⟩

theorem positive_counts_witness :
    (∀ e ∈ (handle_seq_line (initial_state 2 25 (5 / 4)) [65, 67, 65, 67]).1.kmer_map,
      1 ≤ e.2) ∧
    (∀ e ∈ (handle_seq_line (initial_state 2 25 (5 / 4)) [65, 67, 65, 67]).1.kmer_map,
      e.2 ≠ 0) ∧
    (∀ cap ff : Int, ∃ r, fair_erase cap ff
      (handle_seq_line (initial_state 2 25 (5 / 4)) [65, 67, 65, 67]).1.kmer_map = some r) :=
  positive_counts (initial_state 2 25 (5 / 4))
    (handle_seq_line (initial_state 2 25 (5 / 4)) [65, 67, 65, 67]).1
    (Reachable.step _ _ Reachable.start
      (Step.ingest (initial_state 2 25 (5 / 4)) [65, 67, 65, 67]))
    rfl

/-! ## C14: a clean_map pass on an empty table -/

theorem raise_limit_frame (g : Globals) (b a : Int) :
    (raise_limit g b a).LINE_COUNT = g.LINE_COUNT ∧
    (raise_limit g b a).FAIRNESS_CONST = g.FAIRNESS_CONST ∧
    (raise_limit g b a).KMER_SIZE = g.KMER_SIZE ∧
    (raise_limit g b a).N = g.N := by
  simp only [raise_limit]
  split
  · split <;> exact ⟨rfl, rfl, rfl, rfl⟩
  · exact ⟨rfl, rfl, rfl, rfl⟩

/-- C14, as the code has it: on an empty table a clean_map pass that divides by no zero
(any pass in harsh mode, and in fair mode one whose running maximum is not zero) returns
and leaves the table empty, but it raises MAP_SIZE_LIMIT by exactly 1000, since no entry
was removed, and sets the harsh mode when the raised limit is >= 15000; LINE_COUNT,
FAIRNESS_CONST, KMER_SIZE and N keep their values. -/
theorem empty_table_pass (g : Globals) (mcc : Int)
    (hdef : g.FAIR_THRESHOLD_MODE = false ∨ to_ulong mcc ≠ 0) :
    ∃ r, clean_map g [] mcc = some r ∧ r.2 = [] ∧
      r.1.MAP_SIZE_LIMIT = g.MAP_SIZE_LIMIT + 1000 ∧
      (r.1.FAIR_THRESHOLD_MODE =
        if g.MAP_SIZE_LIMIT + 1000 ≥ 15000 then false else g.FAIR_THRESHOLD_MODE) ∧
      r.1.LINE_COUNT = g.LINE_COUNT ∧ r.1.FAIRNESS_CONST = g.FAIRNESS_CONST ∧
      r.1.KMER_SIZE = g.KMER_SIZE ∧ r.1.N = g.N := by
  have hc : clean_map g [] mcc = some (raise_limit g 0 0, []) := by
    by_cases hm : g.FAIR_THRESHOLD_MODE = true
    · rcases hdef with h | hz
      · rw [hm] at h; exact absurd h (by decide)
      · simp only [clean_map, erase_entries, hm, hz, if_true, if_false, fair_erase]
        rfl
    · have hm2 : g.FAIR_THRESHOLD_MODE = false := by simpa using hm
      simp only [clean_map, erase_entries, hm2, harsh_erase]
      rfl
  refine ⟨_, hc, rfl, ?_, ?_, raise_limit_frame g 0 0⟩
  · rw [raise_limit_empty]
    split <;> rfl
  · rw [raise_limit_empty]
    split <;> rfl

theorem empty_table_pass_witness :
    ∃ r, clean_map { default_globals with MAP_SIZE_LIMIT := 14000 } [] 3 = some r ∧ r.2 = [] ∧
      r.1.MAP_SIZE_LIMIT = 14000 + 1000 ∧
      (r.1.FAIR_THRESHOLD_MODE =
        if (14000 : Int) + 1000 ≥ 15000 then false else true) ∧
      r.1.LINE_COUNT = 0 ∧ r.1.FAIRNESS_CONST = 5 / 4 ∧
      r.1.KMER_SIZE = 30 ∧ r.1.N = 25 :=
  empty_table_pass { default_globals with MAP_SIZE_LIMIT := 14000 } 3 (Or.inr (by decide))

/-- C14 as stated fails: in the state main is in after its only entry was evicted (empty
table, running maximum 1, fair mode, MAP_SIZE_LIMIT 1000) a clean_map pass returns a state
with MAP_SIZE_LIMIT 2000, and from MAP_SIZE_LIMIT 14000 it also changes the mode. -/
theorem empty_table_pass_counterexample :
    (∃ st1, run_clean_map
        { g := { default_globals with KMER_SIZE := 4, LINE_COUNT := 4 }
          kmer_map := []
          most_common_kmer_count := 1 } = some st1 ∧
      st1.kmer_map = [] ∧ st1.g.MAP_SIZE_LIMIT = 2000 ∧
      st1.g.MAP_SIZE_LIMIT ≠ (default_globals).MAP_SIZE_LIMIT) ∧
    (∃ st1, run_clean_map
        { g := { default_globals with MAP_SIZE_LIMIT := 14000 }
          kmer_map := []
          most_common_kmer_count := 1 } = some st1 ∧
      st1.g.MAP_SIZE_LIMIT = 15000 ∧ st1.g.FAIR_THRESHOLD_MODE = false ∧
      (default_globals).FAIR_THRESHOLD_MODE = true) := by
  have hz : to_ulong 1 ≠ 0 := by decide
  have h0 : ¬ ((0 : Int) - 0 > Int.tdiv 0 10) := by decide
  constructor
  · refine ⟨{ g := { default_globals with KMER_SIZE := 4, LINE_COUNT := 4,
                                           MAP_SIZE_LIMIT := 2000 }
              kmer_map := []
              most_common_kmer_count := 1 }, ?_, rfl, rfl, by decide⟩
    simp [run_clean_map, clean_map, erase_entries, fair_erase, raise_limit, default_globals,
      hz, h0]
  · refine ⟨{ g := { default_globals with MAP_SIZE_LIMIT := 15000,
                                           FAIR_THRESHOLD_MODE := false }
              kmer_map := []
              most_common_kmer_count := 1 }, ?_, rfl, rfl, rfl⟩
    simp [run_clean_map, clean_map, erase_entries, fair_erase, raise_limit, default_globals,
      hz, h0]

/-! ## C15: the division by the running maximum -/

theorem run_clean_map_zero (st : MainState) (hmode : st.g.FAIR_THRESHOLD_MODE = true)
    (hmax : st.most_common_kmer_count = 0) : run_clean_map st = none := by
  have hz : to_ulong 0 = 0 := by decide
  simp [run_clean_map, clean_map, erase_entries, hmode, hmax, hz]

theorem main_none_of_loop (sort : List (List Int × Int) → List (List Int × Int))
    (kmer_size : Nat) (top_count : Int) (fairness_const : ℚ) (lines : List (List Int))
    (st : MainState)
    (hl : main_loop lines (initial_state kmer_size top_count fairness_const) = some st)
    (hmode : st.g.FAIR_THRESHOLD_MODE = true) (hmax : st.most_common_kmer_count = 0) :
    main sort kmer_size top_count fairness_const lines = none := by
  simp only [main, hl, run_clean_map_zero st hmode hmax]

theorem reachable_nonempty_max (st0 st : MainState) (h : Reachable st0 st)
    (htable : st0.kmer_map = []) (hmax : st0.most_common_kmer_count = 0)
    (hne : st.kmer_map ≠ []) : 1 ≤ st.most_common_kmer_count := by
  obtain ⟨_, hm⟩ := reachable_max st0 st h htable hmax
  have hp := reachable_pos st0 st h htable
  obtain ⟨e, he⟩ := List.exists_mem_of_ne_nil _ hne
  have h1 := hm e he
  have h2 := hp e he
  omega

/-- C15 fails on the code: main calls clean_map after the loop whatever was read, so on a
file that cannot be read (no line), on an empty file (one empty line) and on a file whose
first sequence is shorter than K the final pass runs in fair mode with a running maximum of
0 and divides LINE_COUNT by zero. Every fair pass with running maximum 0 does. A pass
made with a table that is not empty, as every capacity-triggered one is, has a running
maximum >= 1. -/
theorem final_pass_divides_by_zero :
    main insertion_sort 30 25 (5 / 4) [] = none ∧
    main insertion_sort 30 25 (5 / 4) [[]] = none ∧
    main insertion_sort 30 25 (5 / 4) short_read_file = none ∧
    (∀ st : MainState, st.g.FAIR_THRESHOLD_MODE = true → st.most_common_kmer_count = 0 →
      run_clean_map st = none) ∧
    (∀ (kmer_size : Nat) (top_count : Int) (fairness_const : ℚ) (st : MainState),
      Reachable (initial_state kmer_size top_count fairness_const) st →
      st.kmer_map ≠ [] → 1 ≤ st.most_common_kmer_count) := by
  refine ⟨?_, ?_, ?_, run_clean_map_zero, ?_⟩
  · exact main_none_of_loop insertion_sort 30 25 (5 / 4) [] (initial_state 30 25 (5 / 4))
      rfl rfl rfl
  · exact main_none_of_loop insertion_sort 30 25 (5 / 4) [[]]
      { initial_state 30 25 (5 / 4) with
          g := { (initial_state 30 25 (5 / 4)).g with LINE_COUNT := 1 } }
      rfl rfl rfl
  · exact main_none_of_loop insertion_sort 30 25 (5 / 4) short_read_file
      { initial_state 30 25 (5 / 4) with
          g := { (initial_state 30 25 (5 / 4)).g with LINE_COUNT := 2 } }
      rfl rfl rfl
  · intro k n f st hr hne
    exact reachable_nonempty_max _ st hr rfl rfl hne

/-! ## C16: eviction is monotone in the count -/

theorem tdiv_antitone (cap c c' : Int) (hcap : 0 ≤ cap) (hc : 1 ≤ c) (hcc : c ≤ c') :
    cap.tdiv c' ≤ cap.tdiv c := by
  rw [Int.tdiv_eq_ediv hcap (by omega), Int.tdiv_eq_ediv hcap (by omega)]
  rw [Int.le_ediv_iff_mul_le (by omega)]
  have h0 : 0 ≤ cap / c' := Int.ediv_nonneg hcap (by omega)
  have h1 : cap / c' * c ≤ cap / c' * c' := Int.mul_le_mul_of_nonneg_left hcc h0
  have h2 : cap / c' * c' ≤ cap := Int.ediv_mul_le cap (by omega)
  omega

theorem clean_map_harsh_table (g : Globals) (m : Table) (mcc : Int)
    (hmode : g.FAIR_THRESHOLD_MODE = false) :
    clean_map g m mcc =
      some (raise_limit g m.length
        (m.filter (fun e => !decide (e.2 ≤ mcc.tdiv 20 + 1))).length,
        m.filter (fun e => !decide (e.2 ≤ mcc.tdiv 20 + 1))) := by
  simp only [clean_map, erase_entries, hmode, harsh_erase_eq]
  simp only [Bool.false_eq_true, if_false]

theorem clean_map_keep (g : Globals) (m : Table) (mcc : Int)
    (hcounts : ∀ e ∈ m, 1 ≤ e.2) (hcap : 0 ≤ g.MAP_SIZE_LIMIT)
    (hdef : g.FAIR_THRESHOLD_MODE = false ∨ to_ulong mcc ≠ 0) :
    ∃ keep : Int → Bool,
      clean_map g m mcc =
        some (raise_limit g m.length (m.filter (fun e => keep e.2)).length,
          m.filter (fun e => keep e.2)) ∧
      ∀ c c' : Int, 1 ≤ c → c ≤ c' → keep c = true → keep c' = true := by
  by_cases hm : g.FAIR_THRESHOLD_MODE = true
  · rcases hdef with h | hz
    · rw [hm] at h; exact absurd h (by decide)
    · have hc0 : ∀ e ∈ m, e.2 ≠ 0 := fun e he => by have := hcounts e he; omega
      refine ⟨fun c => !decide
        (fairness_factor g.LINE_COUNT mcc g.FAIRNESS_CONST
          < g.MAP_SIZE_LIMIT.tdiv c), clean_map_fair_table g m mcc hm hz hc0, ?_⟩
      intro c c' hc hcc hk
      have ha := tdiv_antitone g.MAP_SIZE_LIMIT c c' hcap hc hcc
      simp only [Bool.not_eq_true', decide_eq_false_iff_not, not_lt] at hk ⊢
      omega
  · have hm2 : g.FAIR_THRESHOLD_MODE = false := by simpa using hm
    refine ⟨fun c => !decide (c ≤ mcc.tdiv 20 + 1), clean_map_harsh_table g m mcc hm2, ?_⟩
    intro c c' _ hcc hk
    simp only [Bool.not_eq_true', decide_eq_false_iff_not, not_le] at hk ⊢
    omega

/-- C16: for every clean_map pass in either mode that divides by no zero (counts >= 1,
MAP_SIZE_LIMIT >= 0, and in fair mode a running maximum that is not zero), the pass
returns, and if an entry with count c survives it then every entry of the table with a
count >= c survives it too; so an entry that is evicted has a smaller count than every
entry that survives. -/
theorem eviction_monotone (g : Globals) (m : Table) (mcc : Int)
    (hcounts : ∀ e ∈ m, 1 ≤ e.2) (hcap : 0 ≤ g.MAP_SIZE_LIMIT)
    (hdef : g.FAIR_THRESHOLD_MODE = false ∨ to_ulong mcc ≠ 0) :
    ∃ r, clean_map g m mcc = some r ∧
      (∀ e ∈ m, ∀ e' ∈ m, e ∈ r.2 → e.2 ≤ e'.2 → e' ∈ r.2) ∧
      (∀ e ∈ m, ∀ e' ∈ m, e ∈ r.2 → e' ∉ r.2 → e'.2 < e.2) := by
  obtain ⟨keep, hc, hmono⟩ := clean_map_keep g m mcc hcounts hcap hdef
  have h1 : ∀ e ∈ m, ∀ e' ∈ m, e ∈ m.filter (fun e => keep e.2) → e.2 ≤ e'.2 →
      e' ∈ m.filter (fun e => keep e.2) := by
    intro e he e' he' hin hle
    rw [List.mem_filter] at hin ⊢
    exact ⟨he', hmono e.2 e'.2 (hcounts e he) hle hin.2⟩
  refine ⟨_, hc, h1, ?_⟩
  intro e he e' he' hin hout
  by_contra hlt
  exact hout (h1 e he e' he' hin (by omega))

theorem eviction_monotone_witness :
    ∃ r, clean_map { default_globals with LINE_COUNT := 2000 }
        [(⟨[65, 67], 331⟩, 1), (⟨[67, 71], 347⟩, 900)] 900 = some r ∧
      (∀ e ∈ ([(⟨[65, 67], 331⟩, 1), (⟨[67, 71], 347⟩, 900)] : Table),
        ∀ e' ∈ ([(⟨[65, 67], 331⟩, 1), (⟨[67, 71], 347⟩, 900)] : Table),
        e ∈ r.2 → e.2 ≤ e'.2 → e' ∈ r.2) ∧
      (∀ e ∈ ([(⟨[65, 67], 331⟩, 1), (⟨[67, 71], 347⟩, 900)] : Table),
        ∀ e' ∈ ([(⟨[65, 67], 331⟩, 1), (⟨[67, 71], 347⟩, 900)] : Table),
        e ∈ r.2 → e' ∉ r.2 → e'.2 < e.2) :=
  eviction_monotone { default_globals with LINE_COUNT := 2000 }
    [(⟨[65, 67], 331⟩, 1), (⟨[67, 71], 347⟩, 900)] 900 (by decide) (by decide)
    (Or.inr (by decide))

/-! ## C19: a clean_map pass only removes -/

/-- C19: for every state and either mode, a clean_map pass that divides by no zero (any
pass in harsh mode, and in fair mode one whose running maximum and counts are not zero)
returns; the table it leaves is a sublist of the table before, so every surviving entry was
there with the same text, hash and count and none is added; and the running maximum,
LINE_COUNT, FAIRNESS_CONST, KMER_SIZE and N are as before. -/
theorem eviction_only_removes (st : MainState)
    (hdef : st.g.FAIR_THRESHOLD_MODE = false ∨
      (to_ulong st.most_common_kmer_count ≠ 0 ∧ ∀ e ∈ st.kmer_map, e.2 ≠ 0)) :
    ∃ st1, run_clean_map st = some st1 ∧
      st1.kmer_map.Sublist st.kmer_map ∧
      (∀ e ∈ st1.kmer_map, e ∈ st.kmer_map) ∧
      st1.kmer_map.length ≤ st.kmer_map.length ∧
      st1.most_common_kmer_count = st.most_common_kmer_count ∧
      st1.g.LINE_COUNT = st.g.LINE_COUNT ∧
      st1.g.FAIRNESS_CONST = st.g.FAIRNESS_CONST ∧
      st1.g.KMER_SIZE = st.g.KMER_SIZE ∧ st1.g.N = st.g.N := by
  obtain ⟨r, hr⟩ := (clean_map_defined_iff st.g st.kmer_map st.most_common_kmer_count).2 hdef
  have hrun : run_clean_map st = some { st with g := r.1, kmer_map := r.2 } := by
    simp only [run_clean_map, hr]
  obtain ⟨hsub, hmc, hg⟩ := run_clean_map_frame st _ hrun
  obtain ⟨f1, f2, f3, f4⟩ := raise_limit_frame st.g st.kmer_map.length r.2.length
  refine ⟨_, hrun, hsub, fun e he => hsub.subset he, hsub.length_le, hmc, ?_, ?_, ?_, ?_⟩
  · rw [hg]; exact f1
  · rw [hg]; exact f2
  · rw [hg]; exact f3
  · rw [hg]; exact f4

theorem eviction_only_removes_witness :
    ∃ st1, run_clean_map
        { g := { default_globals with MAP_SIZE_LIMIT := 15000, FAIR_THRESHOLD_MODE := false }
          kmer_map := [(⟨[65, 67], 331⟩, 3), (⟨[67, 71], 347⟩, 4)]
          most_common_kmer_count := 45 } = some st1 ∧
      st1.kmer_map.Sublist [(⟨[65, 67], 331⟩, 3), (⟨[67, 71], 347⟩, 4)] ∧
      (∀ e ∈ st1.kmer_map, e ∈ ([(⟨[65, 67], 331⟩, 3), (⟨[67, 71], 347⟩, 4)] : Table)) ∧
      st1.kmer_map.length ≤ ([(⟨[65, 67], 331⟩, 3), (⟨[67, 71], 347⟩, 4)] : Table).length ∧
      st1.most_common_kmer_count = 45 ∧
      st1.g.LINE_COUNT = 0 ∧
      st1.g.FAIRNESS_CONST = 5 / 4 ∧
      st1.g.KMER_SIZE = 30 ∧ st1.g.N = 25 :=
  eviction_only_removes
    { g := { default_globals with MAP_SIZE_LIMIT := 15000, FAIR_THRESHOLD_MODE := false }
      kmer_map := [(⟨[65, 67], 331⟩, 3), (⟨[67, 71], 347⟩, 4)]
      most_common_kmer_count := 45 } (Or.inl rfl)

/-! ## C20: the entry that holds the running maximum, in harsh mode -/

/-- C20: for every table and every running maximum m >= 0, a clean_map pass in harsh mode
returns and an entry whose count equals m survives it if and only if m >= 2; for m = 1 a
table whose counts are all 1 is emptied. -/
theorem harsh_keeps_maximum (g : Globals) (m : Table) (mcc : Int)
    (hmode : g.FAIR_THRESHOLD_MODE = false) (hmcc : 0 ≤ mcc) :
    ∃ r, clean_map g m mcc = some r ∧
      (∀ e ∈ m, e.2 = mcc → (e ∈ r.2 ↔ 2 ≤ mcc)) ∧
      (mcc = 1 → (∀ e ∈ m, e.2 = 1) → r.2 = []) := by
  have htdiv : mcc.tdiv 20 = mcc / 20 := Int.tdiv_eq_ediv hmcc (by decide)
  refine ⟨_, clean_map_harsh_table g m mcc hmode, ?_, ?_⟩
  · intro e he hem
    simp only [List.mem_filter, he, true_and, Bool.not_eq_true', decide_eq_false_iff_not,
      not_le, htdiv, hem]
    omega
  · intro h1 hall
    apply List.filter_eq_nil_iff.2
    intro e he
    have := hall e he
    simp only [htdiv, h1, this]
    decide

theorem harsh_keeps_maximum_witness :
    ∃ r, clean_map { default_globals with MAP_SIZE_LIMIT := 15000, FAIR_THRESHOLD_MODE := false }
        [(⟨[65, 67], 331⟩, 1), (⟨[67, 71], 347⟩, 1)] 1 = some r ∧
      (∀ e ∈ ([(⟨[65, 67], 331⟩, 1), (⟨[67, 71], 347⟩, 1)] : Table),
        e.2 = 1 → (e ∈ r.2 ↔ (2 : Int) ≤ 1)) ∧
      ((1 : Int) = 1 → (∀ e ∈ ([(⟨[65, 67], 331⟩, 1), (⟨[67, 71], 347⟩, 1)] : Table), e.2 = 1) →
        r.2 = []) :=
  harsh_keeps_maximum
    { default_globals with MAP_SIZE_LIMIT := 15000, FAIR_THRESHOLD_MODE := false }
    [(⟨[65, 67], 331⟩, 1), (⟨[67, 71], 347⟩, 1)] 1 rfl (by decide)

/-! ## C17: what LINE_COUNT counts -/

theorem run_clean_map_line_count (st st1 : MainState) (h : run_clean_map st = some st1) :
    st1.g.LINE_COUNT = st.g.LINE_COUNT := by
  obtain ⟨_, _, hg⟩ := run_clean_map_frame st st1 h
  rw [hg]
  exact (raise_limit_frame st.g _ _).1

theorem main_body_line_count (st st1 : MainState) (line : List Int) (b : Bool)
    (h : main_body st line = some (st1, b)) :
    st1.g.LINE_COUNT = st.g.LINE_COUNT + 1 := by
  simp only [main_body] at h
  split at h
  · simp only [Option.some.injEq, Prod.mk.injEq] at h
    rw [← h.1]
  · split at h
    · simp only [Option.some.injEq, Prod.mk.injEq] at h
      rw [← h.1, handle_seq_line_g]
    · split at h
      · cases hr : run_clean_map (handle_seq_line
            { st with g := { st.g with LINE_COUNT := st.g.LINE_COUNT + 1 } } line).1 with
        | none => simp [hr] at h
        | some st2 =>
          simp only [hr, Option.some.injEq, Prod.mk.injEq] at h
          rw [← h.1, run_clean_map_line_count _ st2 hr, handle_seq_line_g]
      · simp only [Option.some.injEq, Prod.mk.injEq] at h
        rw [← h.1, handle_seq_line_g]

theorem main_loop_line_count :
    ∀ (lines : List (List Int)) (st st1 : MainState), main_loop lines st = some st1 →
      st1.g.LINE_COUNT = st.g.LINE_COUNT + lines_read lines st ∧
      lines_read lines st ≤ lines.length ∧
      sequences_ingested lines st + (st.g.LINE_COUNT + 2) / 4 ≤ (st1.g.LINE_COUNT + 2) / 4 := by
  intro lines
  induction lines with
  | nil =>
    intro st st1 h
    simp only [main_loop, Option.some.injEq] at h
    rw [← h]
    simp [lines_read, sequences_ingested]
  | cons line rest ih =>
    intro st st1 h
    simp only [main_loop] at h
    cases hb : main_body st line with
    | none => simp [hb] at h
    | some r =>
      obtain ⟨st2, b⟩ := r
      have hlc := main_body_line_count st st2 line b hb
      have hing : (if (st.g.LINE_COUNT + 1) % 4 = 2 ∧ line ≠ [] ∧
          st.g.KMER_SIZE ≤ (first_word line).length then 1 else 0)
            + (st.g.LINE_COUNT + 2) / 4 ≤ (st.g.LINE_COUNT + 1 + 2) / 4 := by
        split
        · rename_i hc
          have := hc.1
          omega
        · omega
      cases b with
      | true =>
        simp only [hb] at h
        obtain ⟨i1, i2, i3⟩ := ih st2 st1 h
        simp only [lines_read, sequences_ingested, hb, List.length_cons]
        rw [hlc] at i1 i3
        refine ⟨by omega, by omega, ?_⟩
        omega
      | false =>
        simp only [hb, Option.some.injEq] at h
        rw [← h]
        simp only [lines_read, sequences_ingested, hb, List.length_cons]
        rw [hlc]
        refine ⟨rfl, by omega, ?_⟩
        omega

/-- C17, as the code has it: LINE_COUNT is incremented exactly once in every iteration of
the loop of main, whatever the line (header, sequence, separator, quality, the empty read
at the end of the file), and by nothing else: ingesting a sequence and a clean_map pass
leave it as it is. So the value the final pass reads is the value before the loop plus the
number of lines read, and the number of sequence lines ingested is at most the number of
those lines whose number is 2 modulo 4. -/
theorem line_count_counts_lines (lines : List (List Int)) (st st1 : MainState)
    (h : main_loop lines st = some st1) :
    st1.g.LINE_COUNT = st.g.LINE_COUNT + lines_read lines st ∧
    lines_read lines st ≤ lines.length ∧
    sequences_ingested lines st + (st.g.LINE_COUNT + 2) / 4 ≤ (st1.g.LINE_COUNT + 2) / 4 ∧
    (∀ (sta stb : MainState) (line : List Int) (b : Bool),
      main_body sta line = some (stb, b) → stb.g.LINE_COUNT = sta.g.LINE_COUNT + 1) ∧
    (∀ (sta : MainState) (line : List Int),
      (handle_seq_line sta line).1.g.LINE_COUNT = sta.g.LINE_COUNT) ∧
    (∀ sta stb : MainState, run_clean_map sta = some stb →
      stb.g.LINE_COUNT = sta.g.LINE_COUNT) := by
  obtain ⟨h1, h2, h3⟩ := main_loop_line_count lines st st1 h
  refine ⟨h1, h2, h3, main_body_line_count, ?_, run_clean_map_line_count⟩
  intro sta line
  rw [handle_seq_line_g]

theorem line_count_counts_lines_witness :
    two_reads_loaded.g.LINE_COUNT =
      (initial_state 2 25 (5 / 4)).g.LINE_COUNT
        + lines_read two_reads_file (initial_state 2 25 (5 / 4)) ∧
    lines_read two_reads_file (initial_state 2 25 (5 / 4)) ≤ two_reads_file.length ∧
    sequences_ingested two_reads_file (initial_state 2 25 (5 / 4))
        + ((initial_state 2 25 (5 / 4)).g.LINE_COUNT + 2) / 4
      ≤ (two_reads_loaded.g.LINE_COUNT + 2) / 4 ∧
    (∀ (sta stb : MainState) (line : List Int) (b : Bool),
      main_body sta line = some (stb, b) → stb.g.LINE_COUNT = sta.g.LINE_COUNT + 1) ∧
    (∀ (sta : MainState) (line : List Int),
      (handle_seq_line sta line).1.g.LINE_COUNT = sta.g.LINE_COUNT) ∧
    (∀ sta stb : MainState, run_clean_map sta = some stb →
      stb.g.LINE_COUNT = sta.g.LINE_COUNT) :=
  line_count_counts_lines two_reads_file (initial_state 2 25 (5 / 4)) two_reads_loaded rfl

/-- C17 as stated fails: on a FASTQ file with two records (K = 2) the loop of main ingests
two sequence lines, and the LINE_COUNT the final clean_map pass reads is 8. -/
theorem line_count_counterexample :
    ∃ st1, main_loop two_reads_file (initial_state 2 25 (5 / 4)) = some st1 ∧
      sequences_ingested two_reads_file (initial_state 2 25 (5 / 4)) = 2 ∧
      st1.g.LINE_COUNT = 8 ∧
      st1.g.LINE_COUNT ≠ sequences_ingested two_reads_file (initial_state 2 25 (5 / 4)) := by
  have hs : sequences_ingested two_reads_file (initial_state 2 25 (5 / 4)) = 2 := by rfl
  refine ⟨two_reads_loaded, rfl, hs, rfl, ?_⟩
  rw [hs]
  decide

/-! ## C18: the header comment of clean_map -/

/-- C18 fails on the code: the header comment of clean_map says that a pass that cannot
clean the map doubles MAP_SIZE_LIMIT, but the code adds 1000. In fair mode with
MAP_SIZE_LIMIT 2000, LINE_COUNT 4000 and one entry of count 5 = running maximum, the pass
removes nothing and leaves MAP_SIZE_LIMIT 3000, not 4000; and whatever the state, a pass
leaves MAP_SIZE_LIMIT as it is or adds exactly 1000. -/
theorem limit_not_doubled :
    (∃ r, clean_map { default_globals with MAP_SIZE_LIMIT := 2000, LINE_COUNT := 4000 }
        [(⟨[65, 67], 331⟩, 5)] 5 = some r ∧
      r.2 = [(⟨[65, 67], 331⟩, 5)] ∧ r.1.MAP_SIZE_LIMIT = 3000 ∧
      r.1.MAP_SIZE_LIMIT ≠ 2 * 2000) ∧
    (∀ (g : Globals) (m : Table) (mcc : Int) (r : Globals × Table),
      clean_map g m mcc = some r →
      r.1.MAP_SIZE_LIMIT = g.MAP_SIZE_LIMIT ∨
      r.1.MAP_SIZE_LIMIT = g.MAP_SIZE_LIMIT + 1000) := by
  constructor
  · have h1 : Int.tdiv 2000 5 = 400 := by decide
    have h2 : Int.tdiv 1 10 = 0 := by decide
    have h3 : to_ulong 5 = 5 := by decide
    have hz : to_ulong 5 ≠ 0 := by decide
    have h4 : fairness_factor 4000 5 (5 / 4) = 1000 :=
      fairness_factor_five_fourths 4000 5 5 h3 (by decide)
    have hc := clean_map_fair_table
      { default_globals with MAP_SIZE_LIMIT := 2000, LINE_COUNT := 4000 }
      [(⟨[65, 67], 331⟩, 5)] 5 rfl hz (by decide)
    have d1 : default_globals.FAIRNESS_CONST = 5 / 4 := rfl
    have hf : List.filter (fun e : kmer × Int => !decide
        (fairness_factor 4000 5 default_globals.FAIRNESS_CONST < Int.tdiv 2000 e.2))
        [(⟨[65, 67], 331⟩, 5)] = [(⟨[65, 67], 331⟩, 5)] := by
      simp [d1, h4, h1]
    refine ⟨_, hc, hf, ?_, ?_⟩
    · show (raise_limit _ _ _).MAP_SIZE_LIMIT = 3000
      rw [hf]
      simp [raise_limit, h2]
    · show (raise_limit _ _ _).MAP_SIZE_LIMIT ≠ 2 * 2000
      rw [hf]
      simp [raise_limit, h2]
  · intro g m mcc r h
    obtain ⟨_, hg⟩ := clean_map_sublist g m mcc r h
    rw [hg]
    exact raise_limit_cases g _ _

end MostCommonKmers
